import Mathlib

/-
  Verification of the declarative build orchestrator against its
  natural-language specification.

  The definitions below are a shallow embedding of the Python sources:
  - build/utils.py: Semaphore, Scope, the Executable node classes
    (For, Try, WithRessource, Set, Return, Raise, Function) and execute;
  - build/__init__.py: ensure_name_in_list (with the similarity ratio of
    difflib.SequenceMatcher), Build.determine_subtargets, and the
    sequential loops of Build.build_variants / Build.build_variant.

  Conventions:
  - Python ints are modelled as Int (they are unbounded, so no wrap-around
    is involved); string names as String; ratios as exact rationals.
  - Python exceptions are modelled by explicit error values threaded
    through the result type; mutable state (hierarchical scopes, semaphore
    counters) by explicit state passing; unbounded recursion by a fuel
    parameter (running out of fuel models Python's recursion limit and is
    reported as a distinguished outcome that the theorems exclude).
-/

namespace BuildCore

/-! Semaphore (build/utils.py lines 161-178).

      class Semaphore:
          def __init__(self, count=1):
              self._count = 0
              self._max_count = count
              self._lock = threading.Condition()
          def acquire(self, count=1):
              with self._lock:
                  while self._max_count - self._count < count:
                      self._lock.wait()
                  self._count += count
          def release(self, count=1):
              with self._lock:
                  self._count -= count
                  self._lock.notify()

    Every operation body runs while holding the single condition lock, so
    each acquire (once the wait loop has let it through) and each release
    is atomic with respect to all others.  The standard shallow embedding
    of such a monitor is a labelled transition system whose transitions
    are those atomic bodies.  Field count is the Python _count (units
    currently held) and maxCount is _max_count (the capacity). -/
structure Semaphore where
  count : Int
  maxCount : Int
  deriving DecidableEq, Repr

/-- The state change performed by acquire after its wait loop has
    established that maxCount - count is at least n. -/
def Semaphore.acquireCommit (s : Semaphore) (n : Int) : Semaphore :=
  { s with count := s.count + n }

/-- The state change performed by release: an unconditional decrement.
    The source performs no check of any kind before decrementing. -/
def Semaphore.release (s : Semaphore) (n : Int) : Semaphore :=
  { s with count := s.count - n }

/-- One atomic monitor operation on a Semaphore.  An acquire of n units
    can only fire once the wait loop has established
    maxCount - count >= n (the negation of the loop guard
    _max_count - _count < count); a release fires unconditionally.
    Amounts are bulk counts of at least 1 (spec section 4.2: acquire and
    release are bulk with count >= 1). -/
inductive SemStep : Semaphore → Semaphore → Prop
  | acquire (s : Semaphore) (n : Int) (hn : 1 ≤ n)
      (hready : n ≤ s.maxCount - s.count) : SemStep s (s.acquireCommit n)
  | release (s : Semaphore) (n : Int) (hn : 1 ≤ n) : SemStep s (s.release n)

/-- C5: for every Semaphore created with capacity cap (a fresh semaphore
    holds 0 units), acquire blocks until capacity minus held is at least
    the requested amount and only then increments held, so that under
    every finite sequence of acquire and release operations the held count
    never exceeds the capacity (and the capacity never changes).  Blocking
    is captured by the guard of the acquire transition: an acquire step
    exists only when the wait loop would let the caller through. -/
theorem semaphore_held_le_capacity (cap : Int) (s : Semaphore)
    (hcap : 0 ≤ cap)
    (htrace : Relation.ReflTransGen SemStep { count := 0, maxCount := cap } s) :
    s.count ≤ s.maxCount ∧ s.maxCount = cap := by
  induction htrace with
  | refl => exact ⟨hcap, rfl⟩
  | tail _ hstep ih =>
    obtain ⟨hle, hmax⟩ := ih
    cases hstep with
    | acquire n hn hready =>
      refine ⟨?_, hmax⟩
      simp only [Semaphore.acquireCommit]
      omega
    | release n hn =>
      refine ⟨?_, hmax⟩
      simp only [Semaphore.release]
      omega

/-- Witness for C5: a semaphore of capacity 2 after the concrete trace
    acquire 1, acquire 1, release 1 holds 1 <= 2 units. -/
def semTraceEnd : Semaphore :=
  ((({ count := 0, maxCount := 2 } : Semaphore).acquireCommit 1).acquireCommit 1).release 1

theorem semaphore_held_le_capacity_witness :
    semTraceEnd.count ≤ semTraceEnd.maxCount ∧ semTraceEnd.maxCount = 2 :=
  semaphore_held_le_capacity 2 semTraceEnd (by decide)
    (((Relation.ReflTransGen.refl.tail
        (SemStep.acquire _ 1 (by decide) (by decide))).tail
        (SemStep.acquire _ 1 (by decide) (by decide))).tail
        (SemStep.release _ 1 (by decide)))

/-- C9 counterexample: the claim says a release that would drive the held
    count negative is a fatal error (an assertion or raised defect) and
    never a silent state change.  In the source, release performs an
    unconditional decrement with no assertion and no check of any kind:
    releasing 1 unit from a fresh semaphore of capacity 1 (held = 0)
    returns normally and silently leaves held at -1. -/
theorem semaphore_release_silent_negative :
    Semaphore.release { count := 0, maxCount := 1 } 1 =
      { count := -1, maxCount := 1 } := by
  decide

/-- C9 amended: Semaphore.release is a total operation that unconditionally
    decrements the held count and never fails; when the released amount
    exceeds the held count, the held count silently becomes negative. -/
theorem semaphore_release_unchecked (s : Semaphore) (n : Int) :
    (s.release n).count = s.count - n ∧ (s.count < n → (s.release n).count < 0) := by
  constructor
  · rfl
  · intro h
    simp only [Semaphore.release]
    omega

/-- Witness for the amended C9 theorem at held = 0, capacity = 1,
    released amount 1: the resulting held count is negative. -/
theorem semaphore_release_unchecked_witness :
    (0 : Int) < 1 ∧ (Semaphore.release { count := 0, maxCount := 1 } 1).count < 0 :=
  ⟨by decide, (semaphore_release_unchecked { count := 0, maxCount := 1 } 1).2 (by decide)⟩

/-! Sequential scheduler loops (build/__init__.py).

    Build.build_variants, lines 491-501 (the variants_in_parallel=False
    branch):

        for variant, variant_scope in variants:
            if not self.build_variant(...):
                result = False
                break

    Build.build_variant, lines 565-576 (the subtargets_in_parallel=False
    branch) has the same shape for subtargets (plus a re-raise of
    BuildError, which aborts the loop just as the break does):

        for index, subtarget in enumerate(subtargets, start=1):
            try:
                if not self.build_subtarget(subtarget, index, scope):
                    result = False
                    break
            except utils.BuildError as e:
                ...
                raise

    The fail_early parameter is received by both functions but never
    consulted on these sequential paths (it only selects the wait mode
    futures.FIRST_EXCEPTION / futures.ALL_COMPLETED in the parallel
    branches).  The boolean each item's build returns is abstracted as an
    oracle list: outcomes[i] is what build_variant (respectively
    build_subtarget) returns for item i.  The model returns the final
    result together with the number of items actually executed. -/
def seqLoop : List Bool → Nat → Bool × Nat
  | [], ran => (true, ran)
  | o :: os, ran => if o then seqLoop os (ran + 1) else (false, ran + 1)

/-- Sequential variant loop of Build.build_variants.  The failEarly
    argument is ignored exactly as the source ignores fail_early on this
    path. -/
def build_variants_seq (_failEarly : Bool) (outcomes : List Bool) : Bool × Nat :=
  seqLoop outcomes 0

/-- Sequential subtarget loop of Build.build_variant, for runs in which no
    subtarget raises (a raising subtarget aborts the loop even harder than
    a false return does).  failEarly is ignored exactly as in the source. -/
def build_variant_seq (_failEarly : Bool) (outcomes : List Bool) : Bool × Nat :=
  seqLoop outcomes 0

/-- C3 counterexample: with fail_early = false (fail-complete mode) and two
    variants of which the first fails, the sequential loop of
    build_variants executes only 1 of the 2 variants: the failing first
    item does prevent the later item from running, contradicting the claim
    that execution waits for all variants regardless of earlier failures. -/
theorem build_variants_seq_stops_early :
    build_variants_seq false [false, true] = (false, 1) := rfl

/-- Helper: how many items the sequential loop executes: every item up to
    and including the first failing one. -/
def seqExecuted (outcomes : List Bool) : Nat :=
  (outcomes.takeWhile id).length + (if outcomes.all id then 0 else 1)

theorem seqLoop_spec (outcomes : List Bool) (ran : Nat) :
    seqLoop outcomes ran = (outcomes.all id, ran + seqExecuted outcomes) := by
  induction outcomes generalizing ran with
  | nil => simp [seqLoop, seqExecuted]
  | cons o os ih =>
    cases o with
    | false => simp [seqLoop, seqExecuted, List.all_cons, List.takeWhile]
    | true =>
      simp only [seqLoop, if_true, ih, seqExecuted, List.all_cons, Bool.true_and,
        List.takeWhile_cons, id, List.length_cons]
      cases h : os.all id <;> simp [h] <;> omega

/-- C3 amended: on the sequential paths the fail_early flag is not
    consulted at all; the loop stops at the first item whose build returns
    false, so the items after it do not run (seqExecuted counts the items
    up to and including the first failure); the overall boolean result
    still equals the logical AND of all individual outcomes, because the
    loop only stops early when that AND is already false.  Only the
    parallel branches use fail_early (to choose between FIRST_EXCEPTION
    and ALL_COMPLETED waiting). -/
theorem build_seq_first_failure_stops (failEarly : Bool) (outcomes : List Bool) :
    build_variants_seq failEarly outcomes = (outcomes.all id, seqExecuted outcomes)
    ∧ build_variant_seq failEarly outcomes = (outcomes.all id, seqExecuted outcomes) := by
  constructor <;>
    simpa [build_variants_seq, build_variant_seq] using seqLoop_spec outcomes 0

/-! Similarity ratio of difflib.SequenceMatcher (CPython standard library),
    as used by ensure_name_in_list (build/__init__.py line 31):

        SequenceMatcher(None, name, potential_match).ratio()

    ratio() is 2*M/T where T is the total length of both sequences and M
    the total size of the matching blocks found by the recursive
    Ratcliff-Obershelp decomposition around find_longest_match.  No junk
    is involved: the constructor passes no junk predicate and the autojunk
    heuristic only applies to second sequences of length >= 200, far above
    the name lengths involved here, so the isbjunk tests in
    find_longest_match are all false and its two junk-extension loops can
    never fire (they are therefore not modelled).  Ratios are represented
    as exact rationals; the source compares C doubles, which agree with
    the exact comparisons against 0.3, 0.4 and 0.85 for short names (each
    ratio is a fraction with a small denominator, spaced far wider apart
    than the rounding error of one double division). -/

/-- Lookup in an association list of naturals with a default, mirroring
    j2len.get(j-1, 0). -/
def assocGetD (l : List (Nat × Nat)) (k d : Nat) : Nat :=
  match l.find? (fun p => p.1 == k) with
  | some p => p.2
  | none => d

/-- Inner loop of find_longest_match over the positions js of the current
    character a[i] inside b (already restricted to [blo, bhi)), threading
    the previous row j2len, building the new row, and improving the best
    triple (besti, bestj, bestsize) whenever a longer diagonal chain ends
    here.  Mirrors:

        for j in b2j.get(a[i], []):
            if j < blo: continue
            if j >= bhi: break
            k = newj2len[j] = j2len.get(j-1, 0) + 1
            if k > bestsize:
                besti, bestj, bestsize = i-k+1, j-k+1, k -/
def flmRow (j2len : List (Nat × Nat)) (i : Nat) :
    List Nat → List (Nat × Nat) → Nat × Nat × Nat → List (Nat × Nat) × (Nat × Nat × Nat)
  | [], newj2len, best => (newj2len, best)
  | j :: js, newj2len, best =>
    let k := (if j = 0 then 0 else assocGetD j2len (j - 1) 0) + 1
    let best := if k > best.2.2 then (i + 1 - k, j + 1 - k, k) else best
    flmRow j2len i js ((j, k) :: newj2len) best

/-- Outer loop of find_longest_match over i in [alo, ahi). -/
def flmRows (a b : List Char) (blo bhi : Nat) :
    List Nat → List (Nat × Nat) → Nat × Nat × Nat → Nat × Nat × Nat
  | [], _, best => best
  | i :: is, j2len, best =>
    match a.get? i with
    | none => best
    | some c =>
      let js := (List.range b.length).filter
        (fun j => decide (blo ≤ j) && decide (j < bhi) && (b.get? j == some c))
      let (newj2len, best) := flmRow j2len i js [] best
      flmRows a b blo bhi is newj2len best

/-- Extension of the best block downwards by equal non-junk elements
    (isbjunk is constantly false here, see above):

        while besti > alo and bestj > blo and a[besti-1] == b[bestj-1]:
            besti, bestj, bestsize = besti-1, bestj-1, bestsize+1 -/
def flmExtendLow (a b : List Char) (alo blo : Nat) :
    Nat → Nat × Nat × Nat → Nat × Nat × Nat
  | 0, best => best
  | fuel + 1, (bi, bj, bs) =>
    if alo < bi ∧ blo < bj ∧ (a.get? (bi - 1)).isSome ∧ a.get? (bi - 1) = b.get? (bj - 1) then
      flmExtendLow a b alo blo fuel (bi - 1, bj - 1, bs + 1)
    else (bi, bj, bs)

/-- Extension of the best block upwards by equal non-junk elements:

        while besti+bestsize < ahi and bestj+bestsize < bhi
                and a[besti+bestsize] == b[bestj+bestsize]:
            bestsize += 1 -/
def flmExtendHigh (a b : List Char) (ahi bhi : Nat) :
    Nat → Nat × Nat × Nat → Nat × Nat × Nat
  | 0, best => best
  | fuel + 1, (bi, bj, bs) =>
    if bi + bs < ahi ∧ bj + bs < bhi ∧ (a.get? (bi + bs)).isSome
        ∧ a.get? (bi + bs) = b.get? (bj + bs) then
      flmExtendHigh a b ahi bhi fuel (bi, bj, bs + 1)
    else (bi, bj, bs)

/-- difflib SequenceMatcher.find_longest_match on a[alo:ahi] and
    b[blo:bhi] with no junk. -/
def findLongestMatch (a b : List Char) (alo ahi blo bhi : Nat) : Nat × Nat × Nat :=
  let best := flmRows a b blo bhi ((List.range ahi).drop alo) [] (alo, blo, 0)
  let best := flmExtendLow a b alo blo best.1 best
  flmExtendHigh a b ahi bhi (ahi + bhi) best

/-- Total size of all matching blocks: the recursive Ratcliff-Obershelp
    decomposition of get_matching_blocks, keeping only the sum of the
    block sizes (which is all ratio() consumes).  The fuel dominates the
    recursion depth; the ranges shrink strictly at every recursive call,
    so a fuel of la + lb + 1 is always enough. -/
def matchTotal (a b : List Char) : Nat → Nat × Nat → Nat × Nat → Nat
  | 0, _, _ => 0
  | fuel + 1, (alo, ahi), (blo, bhi) =>
    let (bi, bj, k) := findLongestMatch a b alo ahi blo bhi
    if k = 0 then 0
    else k + matchTotal a b fuel (alo, bi) (blo, bj)
           + matchTotal a b fuel (bi + k, ahi) (bj + k, bhi)

/-- SequenceMatcher(None, sa, sb).ratio() as an exact fraction: numerator
    2*M, denominator T = len(a) + len(b); difflib._calculate_ratio returns
    1.0 when both sequences are empty, represented as (1, 1).  The
    denominator is always positive. -/
def ratioPair (sa sb : String) : Nat × Nat :=
  if sa.data.length + sb.data.length = 0 then (1, 1)
  else (2 * matchTotal sa.data sb.data (sa.data.length + sb.data.length + 1)
          (0, sa.data.length) (0, sb.data.length),
        sa.data.length + sb.data.length)

/-- The rational value of a ratio fraction (used to state the theorems;
    the executable comparisons below cross-multiply instead, which agrees
    with comparing the values because denominators are positive). -/
def ratioVal (p : Nat × Nat) : ℚ := (p.1 : ℚ) / (p.2 : ℚ)

/-- Value equality of two ratio fractions. -/
def rEq (p q : Nat × Nat) : Bool := p.1 * q.2 == q.1 * p.2

/-- Strict value order of two ratio fractions. -/
def rLt (p q : Nat × Nat) : Bool := decide (p.1 * q.2 < q.1 * p.2)

/-! Fuzzy name checking: ensure_name_in_list (build/__init__.py lines
    19-54).  The names iterated are the keys of the targets table, all
    strings, so the isinstance(potential_match, str) filter keeps
    everything.  matches.sort(reverse=True) on (float, str) pairs is
    Python's stable sort under the reversed lexicographic tuple order;
    since pairs with equal ratio and equal name are identical, the sorted
    result is exactly the insertion sort below (later elements are placed
    after the earlier ones they do not strictly dominate). -/

/-- Stable insertion sort, inserting each later element after every
    earlier element it does not strictly precede (lt is the strict
    ordering used by the sort). -/
def pyOrderedInsert {α : Type} (lt : α → α → Bool) (x : α) : List α → List α
  | [] => [x]
  | y :: l => if lt x y then x :: y :: l else y :: pyOrderedInsert lt x l

/-- Python list.sort with comparator lt: left-to-right stable insertion
    into the sorted prefix. -/
def pySort {α : Type} (lt : α → α → Bool) (l : List α) : List α :=
  l.foldl (fun acc x => pyOrderedInsert lt x acc) []

/-- Strict descending lexicographic order on (ratio, name) pairs: the
    order of matches.sort(reverse=True).  Ratio ties (as float values)
    are broken by the descending string order of the names, exactly as
    Python tuple comparison does. -/
def tupGt (p q : (Nat × Nat) × String) : Bool :=
  if rEq p.1 q.1 then decide (q.2 < p.2) else rLt q.1 p.1

/-- The sorted match list of ensure_name_in_list:
    [(ratio, candidate)] in descending order. -/
def nameMatches (names : List String) (name : String) : List ((Nat × Nat) × String) :=
  pySort tupGt (names.map (fun c => (ratioPair name c, c)))

/-- The comparison best > 0.3 of the source, on the exact fraction. -/
def ratioGt3of10 (p : Nat × Nat) : Bool := decide (10 * p.1 > 3 * p.2)

/-- The comparison best < 0.85 of the source, on the exact fraction. -/
def ratioLt17of20 (p : Nat × Nat) : Bool := decide (20 * p.1 < 17 * p.2)

/-- The comparison second > 0.4 of the source, on the exact fraction.
    Note the strict inequality: a second-best ratio of exactly 0.4 fails
    this test. -/
def ratioGt2of5 (p : Nat × Nat) : Bool := decide (5 * p.1 > 2 * p.2)

/-- The suggested names, in message order: [] when no suggestion is made,
    [best] for a single suggestion, [best, second] for two.  Mirrors:

        if matches and matches[0][0] > 0.3:
            message += f" Did you mean '{matches[0][1]}'"
            if len(matches) >= 2 and matches[0][0] < 0.85 and matches[1][0] > 0.4:
                message += f", or '{matches[1][1]}'"
            message += "?" -/
def suggList (names : List String) (name : String) : List String :=
  match nameMatches names name with
  | [] => []
  | (r0, n0) :: rest =>
    if ratioGt3of10 r0 then
      match rest with
      | [] => [n0]
      | (r1, n1) :: _ =>
        if ratioLt17of20 r0 && ratioGt2of5 r1 then [n0, n1] else [n0]
    else []

/-- The suggestion suffix of the error message. -/
def suggestionText (names : List String) (name : String) : String :=
  match suggList names name with
  | [] => ""
  | [n0] => " Did you mean '" ++ n0 ++ "'?"
  | n0 :: n1 :: _ => " Did you mean '" ++ n0 ++ "', or '" ++ n1 ++ "'?"

/-- The full message of the raised BuildError. -/
def notFoundMessage (noun : String) (names : List String) (name : String) : String :=
  noun ++ " '" ++ name ++ "' could not be found in the build config!"
    ++ suggestionText names name

/-- ensure_name_in_list with exception=True (as called for requested,
    skip and from names): ok when the name is present, otherwise the
    raised BuildError's message. -/
def ensure_name_in_list (names : List String) (name : String) (noun : String) :
    Except String Bool :=
  if name ∈ names then .ok true else .error (notFoundMessage noun names name)

/-! Ordering facts about the sorted match list, needed to show that the
    first suggestion carries the highest similarity ratio. -/

theorem mem_pyOrderedInsert {α : Type} (lt : α → α → Bool) (x : α) (l : List α) (z : α) :
    z ∈ pyOrderedInsert lt x l ↔ z = x ∨ z ∈ l := by
  induction l with
  | nil => simp [pyOrderedInsert]
  | cons y l ih =>
    cases h : lt x y <;> simp [pyOrderedInsert, h, ih] <;> tauto

theorem mem_pySortFold {α : Type} (lt : α → α → Bool) (l acc : List α) (z : α) :
    z ∈ l.foldl (fun acc x => pyOrderedInsert lt x acc) acc ↔ z ∈ acc ∨ z ∈ l := by
  induction l generalizing acc with
  | nil => simp
  | cons y l ih =>
    simp only [List.foldl_cons, ih, mem_pyOrderedInsert, List.mem_cons]
    tauto

theorem mem_pySort {α : Type} (lt : α → α → Bool) (l : List α) (z : α) :
    z ∈ pySort lt l ↔ z ∈ l := by
  simp [pySort, mem_pySortFold]

/-- The order the sorted list is pairwise arranged in: a later element
    never strictly precedes an earlier one. -/
def sortRel {α : Type} (lt : α → α → Bool) (a b : α) : Prop := lt b a = false

theorem pairwise_pyOrderedInsert {α : Type} (lt : α → α → Bool) (P : α → Prop)
    (hasym : ∀ a b, P a → P b → lt a b = true → lt b a = false)
    (htrans : ∀ a b c, P a → P b → P c →
      lt a b = true → lt b c = true → lt a c = true)
    (x : α) (hx : P x) (l : List α) (hl : ∀ z ∈ l, P z)
    (h : l.Pairwise (sortRel lt)) :
    (pyOrderedInsert lt x l).Pairwise (sortRel lt) := by
  induction l with
  | nil => simpa [pyOrderedInsert, sortRel] using List.pairwise_singleton _ x
  | cons y l ih =>
    rw [List.pairwise_cons] at h
    obtain ⟨hyl, hlp⟩ := h
    cases hcmp : lt x y with
    | true =>
      simp only [pyOrderedInsert, hcmp, if_true]
      refine List.Pairwise.cons ?_ (List.Pairwise.cons hyl hlp)
      intro z hz
      rcases List.mem_cons.mp hz with hzy | hzl
      · rw [hzy]
        exact hasym x y hx (hl y (by simp)) hcmp
      · unfold sortRel
        cases hzx : lt z x with
        | false => rfl
        | true =>
          have hzy2 := htrans z x y (hl z (by simp [hzl])) hx (hl y (by simp))
            hzx hcmp
          have := hyl z hzl
          unfold sortRel at this
          rw [this] at hzy2
          cases hzy2
    | false =>
      simp only [pyOrderedInsert, hcmp, if_false, Bool.false_eq_true]
      refine List.Pairwise.cons ?_ (ih (fun z hz => hl z (by simp [hz])) hlp)
      intro z hz
      rcases (mem_pyOrderedInsert lt x l z).mp hz with hzx | hzl
      · rw [hzx]
        exact hcmp
      · exact hyl z hzl

theorem pairwise_pySortFold {α : Type} (lt : α → α → Bool) (P : α → Prop)
    (hasym : ∀ a b, P a → P b → lt a b = true → lt b a = false)
    (htrans : ∀ a b c, P a → P b → P c →
      lt a b = true → lt b c = true → lt a c = true)
    (l : List α) (hl : ∀ z ∈ l, P z)
    (acc : List α) (hacc : ∀ z ∈ acc, P z)
    (haccp : acc.Pairwise (sortRel lt)) :
    (l.foldl (fun acc x => pyOrderedInsert lt x acc) acc).Pairwise (sortRel lt) := by
  induction l generalizing acc with
  | nil => simpa
  | cons y l ih =>
    simp only [List.foldl_cons]
    refine ih (fun z hz => hl z (by simp [hz])) _ ?_ ?_
    · intro z hz
      rcases (mem_pyOrderedInsert lt y acc z).mp hz with hzy | hza
      · rw [hzy]
        exact hl y (by simp)
      · exact hacc z hza
    · exact pairwise_pyOrderedInsert lt P hasym htrans y (hl y (by simp)) acc hacc haccp

theorem pairwise_pySort {α : Type} (lt : α → α → Bool) (P : α → Prop)
    (hasym : ∀ a b, P a → P b → lt a b = true → lt b a = false)
    (htrans : ∀ a b c, P a → P b → P c →
      lt a b = true → lt b c = true → lt a c = true)
    (l : List α) (hl : ∀ z ∈ l, P z) :
    (pySort lt l).Pairwise (sortRel lt) :=
  pairwise_pySortFold lt P hasym htrans l hl [] (by simp) (by simp)

/-- Positivity of a ratio fraction's denominator. -/
def posDen (p : (Nat × Nat) × String) : Prop := 0 < p.1.2

theorem ratioPair_den_pos (sa sb : String) : 0 < (ratioPair sa sb).2 := by
  unfold ratioPair
  split
  · exact Nat.one_pos
  · simp only
    omega

theorem rEq_iff (p q : Nat × Nat) (hp : 0 < p.2) (hq : 0 < q.2) :
    rEq p q = true ↔ ratioVal p = ratioVal q := by
  unfold rEq ratioVal
  rw [beq_iff_eq, div_eq_div_iff (by exact_mod_cast hp.ne') (by exact_mod_cast hq.ne')]
  exact_mod_cast Iff.rfl

theorem rLt_iff (p q : Nat × Nat) (hp : 0 < p.2) (hq : 0 < q.2) :
    rLt p q = true ↔ ratioVal p < ratioVal q := by
  unfold rLt ratioVal
  rw [decide_eq_true_iff, div_lt_div_iff₀ (by exact_mod_cast hp) (by exact_mod_cast hq)]
  exact_mod_cast Iff.rfl

theorem tupGt_true_iff (p q : (Nat × Nat) × String) (hp : posDen p) (hq : posDen q) :
    tupGt p q = true ↔
      (ratioVal p.1 = ratioVal q.1 ∧ q.2 < p.2) ∨ ratioVal q.1 < ratioVal p.1 := by
  unfold tupGt
  cases heq : rEq p.1 q.1 with
  | true =>
    have hv := (rEq_iff p.1 q.1 hp hq).mp heq
    rw [if_pos rfl, decide_eq_true_iff]
    constructor
    · intro h
      exact Or.inl ⟨hv, h⟩
    · rintro (⟨_, h⟩ | h)
      · exact h
      · rw [hv] at h
        exact absurd h (lt_irrefl _)
  | false =>
    have hv : ¬ ratioVal p.1 = ratioVal q.1 := by
      intro h
      rw [(rEq_iff p.1 q.1 hp hq).symm] at h
      rw [h] at heq
      cases heq
    rw [if_neg Bool.false_ne_true, rLt_iff q.1 p.1 hq hp]
    constructor
    · intro h
      exact Or.inr h
    · rintro (⟨h, _⟩ | h)
      · exact absurd h hv
      · exact h

theorem tupGt_asym (p q : (Nat × Nat) × String) (hp : posDen p) (hq : posDen q)
    (h : tupGt p q = true) : tupGt q p = false := by
  cases hqp : tupGt q p with
  | false => rfl
  | true =>
    rw [tupGt_true_iff p q hp hq] at h
    rw [tupGt_true_iff q p hq hp] at hqp
    rcases h with ⟨he1, hn1⟩ | hv1 <;> rcases hqp with ⟨he2, hn2⟩ | hv2
    · exact absurd (hn1.trans hn2) (lt_irrefl _)
    · rw [he1] at hv2
      exact absurd hv2 (lt_irrefl _)
    · rw [he2] at hv1
      exact absurd hv1 (lt_irrefl _)
    · exact absurd (hv1.trans hv2) (lt_irrefl _)

theorem tupGt_trans (p q r : (Nat × Nat) × String)
    (hp : posDen p) (hq : posDen q) (hr : posDen r)
    (h1 : tupGt p q = true) (h2 : tupGt q r = true) : tupGt p r = true := by
  rw [tupGt_true_iff p q hp hq] at h1
  rw [tupGt_true_iff q r hq hr] at h2
  rw [tupGt_true_iff p r hp hr]
  rcases h1 with ⟨he1, hn1⟩ | hv1 <;> rcases h2 with ⟨he2, hn2⟩ | hv2
  · exact Or.inl ⟨he1.trans he2, hn2.trans hn1⟩
  · exact Or.inr (he1 ▸ hv2)
  · exact Or.inr (he2 ▸ hv1)
  · exact Or.inr (hv2.trans hv1)

theorem nameMatches_posDen (names : List String) (name : String) :
    ∀ z ∈ nameMatches names name, posDen z := by
  intro z hz
  rw [nameMatches, mem_pySort, List.mem_map] at hz
  obtain ⟨c, _, hc⟩ := hz
  rw [← hc]
  exact ratioPair_den_pos name c

/-- The head of the sorted match list carries the maximal similarity
    ratio among all candidates. -/
theorem nameMatches_head_max (names : List String) (name : String)
    (r0 : Nat × Nat) (n0 : String) (rest : List ((Nat × Nat) × String))
    (h : nameMatches names name = (r0, n0) :: rest) :
    ∀ c ∈ names, ratioVal (ratioPair name c) ≤ ratioVal r0 := by
  intro c hc
  have hmem : (ratioPair name c, c) ∈ nameMatches names name := by
    rw [nameMatches, mem_pySort, List.mem_map]
    exact ⟨c, hc, rfl⟩
  have hpw : (nameMatches names name).Pairwise (sortRel tupGt) := by
    unfold nameMatches
    exact pairwise_pySort tupGt posDen tupGt_asym tupGt_trans _
      (by
        intro z hz
        rw [List.mem_map] at hz
        obtain ⟨d, _, hd⟩ := hz
        rw [← hd]
        exact ratioPair_den_pos name d)
  rw [h] at hmem hpw
  rcases List.mem_cons.mp hmem with hhd | htl
  · rw [show r0 = (ratioPair name c, c).1 from congrArg Prod.fst hhd.symm]
  · rw [List.pairwise_cons] at hpw
    have hrel := hpw.1 _ htl
    unfold sortRel at hrel
    have hp0 : posDen ((r0, n0) : (Nat × Nat) × String) := by
      have := nameMatches_posDen names name (r0, n0)
      rw [h] at this
      exact this (by simp)
    have hpc : posDen ((ratioPair name c, c) : (Nat × Nat) × String) := ratioPair_den_pos name c
    by_contra hlt
    push_neg at hlt
    have : tupGt (ratioPair name c, c) (r0, n0) = true := by
      rw [tupGt_true_iff _ _ hpc hp0]
      exact Or.inr hlt
    rw [this] at hrel
    cases hrel

theorem ratioGt3of10_iff (p : Nat × Nat) (hp : 0 < p.2) :
    ratioGt3of10 p = true ↔ (3 : ℚ) / 10 < ratioVal p := by
  unfold ratioGt3of10 ratioVal
  rw [decide_eq_true_iff, div_lt_div_iff₀ (by norm_num) (by exact_mod_cast hp)]
  constructor <;> intro h
  · calc ((3 : ℚ)) * p.2 = ((3 * p.2 : Nat) : ℚ) := by push_cast; ring
    _ < ((10 * p.1 : Nat) : ℚ) := by exact_mod_cast h
    _ = (p.1 : ℚ) * 10 := by push_cast; ring
  · have : ((3 * p.2 : Nat) : ℚ) < ((10 * p.1 : Nat) : ℚ) := by push_cast; push_cast at h; linarith
    exact_mod_cast this

theorem ratioLt17of20_iff (p : Nat × Nat) (hp : 0 < p.2) :
    ratioLt17of20 p = true ↔ ratioVal p < (17 : ℚ) / 20 := by
  unfold ratioLt17of20 ratioVal
  rw [decide_eq_true_iff, div_lt_div_iff₀ (by exact_mod_cast hp) (by norm_num)]
  constructor <;> intro h
  · calc (p.1 : ℚ) * 20 = ((20 * p.1 : Nat) : ℚ) := by push_cast; ring
    _ < ((17 * p.2 : Nat) : ℚ) := by exact_mod_cast h
    _ = (17 : ℚ) * p.2 := by push_cast; ring
  · have : ((20 * p.1 : Nat) : ℚ) < ((17 * p.2 : Nat) : ℚ) := by push_cast; push_cast at h; linarith
    exact_mod_cast this

theorem ratioGt2of5_iff (p : Nat × Nat) (hp : 0 < p.2) :
    ratioGt2of5 p = true ↔ (2 : ℚ) / 5 < ratioVal p := by
  unfold ratioGt2of5 ratioVal
  rw [decide_eq_true_iff, div_lt_div_iff₀ (by norm_num) (by exact_mod_cast hp)]
  constructor <;> intro h
  · calc ((2 : ℚ)) * p.2 = ((2 * p.2 : Nat) : ℚ) := by push_cast; ring
    _ < ((5 * p.1 : Nat) : ℚ) := by exact_mod_cast h
    _ = (p.1 : ℚ) * 5 := by push_cast; ring
  · have : ((2 * p.2 : Nat) : ℚ) < ((5 * p.1 : Nat) : ℚ) := by push_cast; push_cast at h; linarith
    exact_mod_cast this

/-- C8 counterexample: the claim says a second suggestion is offered
    exactly when the best ratio is below 0.85 and the second-best ratio
    lies in the interval [0.4, best), including the case where the
    second-best equals 0.4 exactly.  For the unknown name "abcde" with
    candidates "abcxx" (ratio 6/10 = 0.6) and "abxxx" (ratio 4/10 = 0.4
    exactly), the claim's condition holds (best 0.6 is above 0.3 and
    below 0.85, and the second-best 0.4 lies in [0.4, 0.6)), yet the
    source's strict test matches[1][0] > 0.4 fails and the message offers
    only the single suggestion 'abcxx'. -/
theorem suggestion_at_exactly_0_4 :
    ratioPair "abcde" "abcxx" = (6, 10)
    ∧ ratioPair "abcde" "abxxx" = (4, 10)
    ∧ ratioVal (6, 10) = (3 : ℚ) / 5
    ∧ ratioVal (4, 10) = (2 : ℚ) / 5
    ∧ suggList ["abcxx", "abxxx"] "abcde" = ["abcxx"]
    ∧ ensure_name_in_list ["abcxx", "abxxx"] "abcde" "build target" =
        .error ("build target 'abcde' could not be found in the build config!"
          ++ " Did you mean 'abcxx'?") := by
  refine ⟨by decide, by decide, ?_, ?_, by decide, rfl⟩
  · norm_num [ratioVal]
  · norm_num [ratioVal]

/-- C8 amended: when a requested, skip or from name is not found, the
    raised error's message suggests a name with the maximal similarity
    ratio whenever the best ratio exceeds 0.3, and offers a second
    suggestion exactly when the best ratio is below 0.85 and the
    second-best ratio is STRICTLY greater than 0.4 (a second-best of
    exactly 0.4 yields a single suggestion; a second-best equal to the
    best still yields two).  The boolean threshold tests are tied to
    their exact rational meaning by the accompanying equivalences. -/
theorem suggestion_thresholds (names : List String) (name noun : String)
    (hnot : name ∉ names) :
    ensure_name_in_list names name noun = .error (notFoundMessage noun names name)
    ∧ ∀ r0 n0 rest, nameMatches names name = (r0, n0) :: rest →
        (∀ c ∈ names, ratioVal (ratioPair name c) ≤ ratioVal r0)
        ∧ (ratioGt3of10 r0 = true ↔ (3 : ℚ) / 10 < ratioVal r0)
        ∧ (ratioGt3of10 r0 = true → (suggList names name).head? = some n0)
        ∧ (ratioGt3of10 r0 = false → suggList names name = [])
        ∧ ∀ r1 n1 rest1, rest = (r1, n1) :: rest1 →
            (ratioLt17of20 r0 = true ↔ ratioVal r0 < (17 : ℚ) / 20)
            ∧ (ratioGt2of5 r1 = true ↔ (2 : ℚ) / 5 < ratioVal r1)
            ∧ (suggList names name = [n0, n1] ↔
                (ratioGt3of10 r0 = true ∧ ratioLt17of20 r0 = true
                  ∧ ratioGt2of5 r1 = true)) := by
  constructor
  · unfold ensure_name_in_list
    rw [if_neg hnot]
  · intro r0 n0 rest h
    have hp0 : 0 < r0.2 := by
      have := nameMatches_posDen names name (r0, n0) (by rw [h]; simp)
      exact this
    refine ⟨nameMatches_head_max names name r0 n0 rest h,
      ratioGt3of10_iff r0 hp0, ?_, ?_, ?_⟩
    · intro hb
      simp only [suggList, h, hb, if_true]
      rcases rest with _ | ⟨⟨r1, n1⟩, tl⟩
      · rfl
      · cases hinner : (ratioLt17of20 r0 && ratioGt2of5 r1) <;> simp [hinner]
    · intro hb
      simp only [suggList, h, hb]
      rfl
    · intro r1 n1 rest1 hrest
      have hp1 : 0 < r1.2 := by
        have := nameMatches_posDen names name (r1, n1) (by rw [h, hrest]; simp)
        exact this
      refine ⟨ratioLt17of20_iff r0 hp0, ratioGt2of5_iff r1 hp1, ?_⟩
      rw [hrest] at h
      simp only [suggList, h]
      cases hb1 : ratioGt3of10 r0 <;>
        cases hb2 : ratioLt17of20 r0 <;>
          cases hb3 : ratioGt2of5 r1 <;>
            simp [hb1, hb2, hb3]

/-- Witness for the amended C8 theorem at the spec's own example: name
    "buidl" against candidates ["build", "test"]; the message is the
    not-found error, the single suggestion is 'build', and 'build'
    carries the maximal ratio 8/10. -/
theorem suggestion_thresholds_witness :
    ensure_name_in_list ["build", "test"] "buidl" "build target" =
      .error (notFoundMessage "build target" ["build", "test"] "buidl")
    ∧ (suggList ["build", "test"] "buidl").head? = some "build"
    ∧ ratioVal (ratioPair "buidl" "build") ≤ ratioVal (8, 10) :=
  ⟨(suggestion_thresholds ["build", "test"] "buidl" "build target" (by decide)).1,
   (((suggestion_thresholds ["build", "test"] "buidl" "build target" (by decide)).2
      (8, 10) "build" [((0, 9), "test")] (by decide)).2.2.1 (by decide)),
   (((suggestion_thresholds ["build", "test"] "buidl" "build target" (by decide)).2
      (8, 10) "build" [((0, 9), "test")] (by decide)).1 "build" (by simp))⟩

/-! Dependency resolver: Build.determine_subtargets (build/__init__.py
    lines 184-266).  The targets table maps each target name to its
    'subtargets' list (the direct requirements); the other TargetSpec
    fields play no role in the resolver.  The function returns, in
    schedule order, each scheduled subtarget paired with the list of
    (sub)targets that require it, or the raised error. -/

abbrev TargetTable := List (String × List String)

def tblLookup (tbl : TargetTable) (name : String) : Option (List String) :=
  match tbl.find? (fun p => p.1 == name) with
  | some p => some p.2
  | none => none

/-- The keys of the table, iterated in insertion order (iterating the
    Python dict self.targets yields its keys). -/
def tblNames (tbl : TargetTable) : List String := tbl.map (fun p => p.1)

/-- self.targets[name].get("subtargets", []), for ranking and checking.
    Every name the resolver ranks or re-checks has been scheduled, hence
    looked up successfully before, so the default branch is unreachable
    there; it mirrors dict.get semantics for the requirement lists. -/
def subtargetsOf (tbl : TargetTable) (name : String) : List String :=
  (tblLookup tbl name).getD []

inductive ResolveErr where
  | buildError (msg : String)
  | keyError
  | indexError
  | recursionLimit
  deriving DecidableEq, Repr

/-- Validation loop: ensure_name_in_list(self.targets, name, noun=...,
    scope=...) for each name, raising utils.BuildError on a miss. -/
def ensureAll (names : List String) (noun : String) :
    List String → Except ResolveErr Unit
  | [] => .ok ()
  | x :: xs =>
    match ensure_name_in_list names x noun with
    | .ok _ => ensureAll names noun xs
    | .error m => .error (.buildError m)

/-- The mutable state of the depth-first traversal: visited_subtargets,
    subtargets (the schedule under construction) and subtarget_parents. -/
structure RState where
  visited : List String
  sched : List String
  parents : List (String × List String)
  deriving DecidableEq, Repr

/-- subtarget_parents.setdefault(subtarget, []).append(required_by). -/
def addParent (ps : List (String × List String)) (child parent : String) :
    List (String × List String) :=
  if ps.any (fun p => p.1 == child) then
    ps.map (fun p => if p.1 == child then (p.1, p.2 ++ [parent]) else p)
  else ps ++ [(child, [parent])]

/-- subtarget_parents.get(name, []). -/
def parentsOf (ps : List (String × List String)) (name : String) : List String :=
  match ps.find? (fun p => p.1 == name) with
  | some p => p.2
  | none => []

mutual
/-- resolve_required_subtargets(subtarget, required_by): the recursive
    post-order traversal.  The fuel bounds the recursion depth (running
    out models Python's RecursionError on a cyclic graph); note that the
    Python truthiness test `if required_by:` treats the empty string like
    None.  resolveSubList walks the requirement list of one subtarget. -/
def resolveSub (tbl : TargetTable) : Nat → String → Option String → RState →
    Except ResolveErr RState
  | 0, _, _, _ => .error .recursionLimit
  | fuel + 1, s, reqBy, st =>
    let st :=
      match reqBy with
      | some rb => if rb = "" then st else { st with parents := addParent st.parents s rb }
      | none => st
    if s ∈ st.visited then .ok st
    else
      let st := { st with visited := st.visited ++ [s] }
      match tblLookup tbl s with
      | none => .error .keyError
      | some reqs =>
        match resolveSubList tbl fuel reqs s st with
        | .error e => .error e
        | .ok st => .ok { st with sched := st.sched ++ [s] }

def resolveSubList (tbl : TargetTable) : Nat → List String → String → RState →
    Except ResolveErr RState
  | 0, _, _, _ => .error .recursionLimit
  | _ + 1, [], _, st => .ok st
  | fuel + 1, r :: rs, parent, st =>
    match resolveSub tbl fuel r (some parent) st with
    | .error e => .error e
    | .ok st => resolveSubList tbl fuel rs parent st
end

/-- The main target loop:

        for target in targets:
            resolve_required_subtargets(target)
            if target not in subtargets:
                subtargets.append(target)

    (the append fires when the target was pruned because it is also in
    the skip list). -/
def resolveTargets (tbl : TargetTable) : Nat → List String → RState →
    Except ResolveErr RState
  | 0, _, _ => .error .recursionLimit
  | _ + 1, [], st => .ok st
  | fuel + 1, t :: ts, st =>
    match resolveSub tbl fuel t none st with
    | .error e => .error e
    | .ok st =>
      let st := if t ∈ st.sched then st else { st with sched := st.sched ++ [t] }
      resolveTargets tbl fuel ts st

/-- The from-impact backlog loop; backlog.pop() pops the last element.
    The subtarget_children map built alongside is dead state (nothing
    reads it) and is not modelled.  The loop always terminates because
    every name appended to the backlog is new to from_targets; the fuel
    only serves the termination checker. -/
def impactLoop (parents : List (String × List String)) :
    Nat → List String → List String → Option (List String)
  | 0, _, _ => none
  | _ + 1, [], froms => some froms
  | fuel + 1, backlog, froms =>
    match backlog.getLast? with
    | none => some froms
    | some s =>
      let res := (parentsOf parents s).foldl
        (fun (acc : List String × List String) origin =>
          if origin ∈ acc.1 then acc else (acc.1 ++ [origin], acc.2 ++ [origin]))
        (froms, backlog.dropLast)
      impactLoop parents fuel res.2 res.1

/-- rank_subtargets(left, right): 1 when left requires right directly,
    -1 when right requires left directly, 0 otherwise. -/
def rankSubtargets (tbl : TargetTable) (left right : String) : Int :=
  if right ∈ subtargetsOf tbl left then 1
  else if left ∈ subtargetsOf tbl right then -1
  else 0

/-- One cell of the final pairwise re-check: indexes the sorted schedule
    at i and j (an out-of-range index raises IndexError: num_subtargets
    was measured before the from-filter shortened the list) and raises
    the cyclic-dependency BuildError when the order is violated. -/
def checkCell (tbl : TargetTable) (sched : List String) (i j : Nat) :
    Except ResolveErr Unit :=
  match sched.get? i with
  | none => .error .indexError
  | some l =>
    match sched.get? j with
    | none => .error .indexError
    | some r =>
      if rankSubtargets tbl l r > 0 then
        .error (.buildError ("cyclic dependency involving subtargets '" ++ l
          ++ "' and '" ++ r ++ "' detected!"))
      else .ok ()

def checkRow (tbl : TargetTable) (sched : List String) (i : Nat) :
    List Nat → Except ResolveErr Unit
  | [] => .ok ()
  | j :: js =>
    match checkCell tbl sched i j with
    | .error e => .error e
    | .ok _ => checkRow tbl sched i js

/-- The full re-check: for i in range(num), for j in range(i, num). -/
def checkPairs (tbl : TargetTable) (sched : List String) (num : Nat) :
    List Nat → Except ResolveErr Unit
  | [] => .ok ()
  | i :: is =>
    match checkRow tbl sched i (List.range' i (num - i)) with
    | .error e => .error e
    | .ok _ => checkPairs tbl sched num is

/-- Build.determine_subtargets(targets, skip_targets, from_targets).
    The three name lists arrive already coerced to lists (the source's
    ensure_sequence preformatting).  Steps: validate all names, run the
    post-order traversal with the visited set seeded by the skip list,
    append requested-but-pruned targets, measure num_subtargets BEFORE
    the from-filter, compute the impact set and filter if from is given,
    stable-sort by the rank comparator, re-check all pairs, and return
    each scheduled subtarget with its required-by list. -/
def determine_subtargets (tbl : TargetTable) (fuel : Nat)
    (targets skipTargets fromTargets : List String) :
    Except ResolveErr (List (String × List String)) :=
  match ensureAll (tblNames tbl) "build target" targets with
  | .error e => .error e
  | .ok _ =>
  match ensureAll (tblNames tbl) "skip subtarget" skipTargets with
  | .error e => .error e
  | .ok _ =>
  match ensureAll (tblNames tbl) "from subtarget" fromTargets with
  | .error e => .error e
  | .ok _ =>
  match resolveTargets tbl fuel targets
      { visited := skipTargets, sched := [], parents := [] } with
  | .error e => .error e
  | .ok st =>
    match (if fromTargets.isEmpty then some st.sched
           else match impactLoop st.parents fuel fromTargets fromTargets with
                | none => none
                | some froms => some (st.sched.filter (fun s => froms.contains s))) with
    | none => .error .recursionLimit
    | some sched1 =>
      match checkPairs tbl (pySort (fun l r => decide (rankSubtargets tbl l r < 0)) sched1)
          st.sched.length (List.range st.sched.length) with
      | .error e => .error e
      | .ok _ =>
        .ok ((pySort (fun l r => decide (rankSubtargets tbl l r < 0)) sched1).map
          (fun s => (s, parentsOf st.parents s)))

/-! Facts about the final pairwise re-check, from which the topological
    validity of every returned schedule follows. -/

theorem length_pyOrderedInsert {α : Type} (lt : α → α → Bool) (x : α) (l : List α) :
    (pyOrderedInsert lt x l).length = l.length + 1 := by
  induction l with
  | nil => rfl
  | cons y l ih =>
    cases h : lt x y <;> simp [pyOrderedInsert, h, ih]

theorem length_pySortFold {α : Type} (lt : α → α → Bool) (l acc : List α) :
    (l.foldl (fun acc x => pyOrderedInsert lt x acc) acc).length
      = acc.length + l.length := by
  induction l generalizing acc with
  | nil => simp
  | cons y l ih =>
    simp only [List.foldl_cons, ih, length_pyOrderedInsert, List.length_cons]
    omega

theorem length_pySort {α : Type} (lt : α → α → Bool) (l : List α) :
    (pySort lt l).length = l.length := by
  simp [pySort, length_pySortFold]

theorem checkRow_ok (tbl : TargetTable) (sched : List String) (i : Nat)
    (js : List Nat) (h : checkRow tbl sched i js = .ok ()) :
    ∀ j ∈ js, checkCell tbl sched i j = .ok () := by
  induction js with
  | nil => intro j hj; cases hj
  | cons j js ih =>
    intro j1 hj1
    unfold checkRow at h
    rcases List.mem_cons.mp hj1 with hj | hj
    · subst hj
      cases hc : checkCell tbl sched i j1 with
      | error e => rw [hc] at h; exact Except.noConfusion h
      | ok u => cases u; rfl
    · cases hc : checkCell tbl sched i j with
      | error e => rw [hc] at h; exact Except.noConfusion h
      | ok u => rw [hc] at h; exact ih h j1 hj

theorem checkPairs_ok (tbl : TargetTable) (sched : List String) (num : Nat)
    (is : List Nat) (h : checkPairs tbl sched num is = .ok ()) :
    ∀ i ∈ is, ∀ j ∈ List.range' i (num - i), checkCell tbl sched i j = .ok () := by
  induction is with
  | nil => intro i hi; cases hi
  | cons i is ih =>
    intro i1 hi1
    unfold checkPairs at h
    cases hr : checkRow tbl sched i (List.range' i (num - i)) with
    | error e => rw [hr] at h; exact Except.noConfusion h
    | ok u =>
      cases u
      rw [hr] at h
      rcases List.mem_cons.mp hi1 with hi | hi
      · subst hi
        exact checkRow_ok tbl sched i1 _ hr
      · exact ih h i1 hi

theorem checkCell_ok (tbl : TargetTable) (sched : List String) (i j : Nat)
    (h : checkCell tbl sched i j = .ok ()) :
    ∃ l r, sched.get? i = some l ∧ sched.get? j = some r
      ∧ rankSubtargets tbl l r ≤ 0 := by
  unfold checkCell at h
  split at h
  · exact Except.noConfusion h
  rename_i l hi
  split at h
  · exact Except.noConfusion h
  rename_i r hj
  refine ⟨l, r, hi, hj, ?_⟩
  by_contra hgt
  push_neg at hgt
  rw [if_pos hgt] at h
  exact Except.noConfusion h

theorem rankSubtargets_of_mem (tbl : TargetTable) (T D : String)
    (h : D ∈ subtargetsOf tbl T) : rankSubtargets tbl T D = 1 := by
  unfold rankSubtargets
  rw [if_pos h]

/-- C1: for every schedule produced (returned, rather than aborted by a
    raised error) by Build.determine_subtargets, and every pair of
    subtargets (D, T) both present in the schedule with D listed in T's
    direct requirement set 'subtargets', D's position in the returned
    ordered schedule is strictly less than T's position.  This is proved
    for every input graph — in particular for every acyclic one, which is
    the case the claim speaks about — because the O(n^2) pairwise
    re-check runs over at least the whole returned schedule (its range,
    measured before the from-filter, can only be larger) and any returned
    schedule has therefore passed the full pairwise order check. -/
theorem determine_subtargets_topological (tbl : TargetTable) (fuel : Nat)
    (targets skipTargets fromTargets : List String)
    (sched : List (String × List String))
    (hok : determine_subtargets tbl fuel targets skipTargets fromTargets = .ok sched)
    (iD iT : Nat) (D T : String) (pD pT : List String)
    (hD : sched.get? iD = some (D, pD)) (hT : sched.get? iT = some (T, pT))
    (hreq : D ∈ subtargetsOf tbl T) : iD < iT := by
  unfold determine_subtargets at hok
  split at hok
  · exact Except.noConfusion hok
  split at hok
  · exact Except.noConfusion hok
  split at hok
  · exact Except.noConfusion hok
  split at hok
  · exact Except.noConfusion hok
  rename_i st hst
  split at hok
  · exact Except.noConfusion hok
  rename_i sched1 hsched1
  split at hok
  · exact Except.noConfusion hok
  rename_i u hcheck
  cases u
  have hsched := (Except.ok.injEq _ _).mp hok
  -- The sorted list underlying the returned association list.
  set sorted := pySort (fun l r => decide (rankSubtargets tbl l r < 0)) sched1 with hsorted
  have hlen1 : sched1.length ≤ st.sched.length := by
    split at hsched1
    · rw [(Option.some.injEq _ _).mp hsched1]
    · split at hsched1
      · exact Option.noConfusion hsched1
      · rw [← (Option.some.injEq _ _).mp hsched1]
        exact List.length_filter_le _ _
  have hlensorted : sorted.length ≤ st.sched.length := by
    rw [hsorted, length_pySort]
    exact hlen1
  have hgetD : sorted.get? iD = some D := by
    have h2 := hD
    rw [← hsched, List.get?_map] at h2
    cases hg : sorted.get? iD with
    | none => rw [hg] at h2; exact Option.noConfusion h2
    | some d =>
      rw [hg, Option.map_some'] at h2
      have h3 := (Option.some.injEq _ _).mp h2
      rw [((Prod.mk.injEq _ _ _ _).mp h3).1]
  have hgetT : sorted.get? iT = some T := by
    have h2 := hT
    rw [← hsched, List.get?_map] at h2
    cases hg : sorted.get? iT with
    | none => rw [hg] at h2; exact Option.noConfusion h2
    | some d =>
      rw [hg, Option.map_some'] at h2
      have h3 := (Option.some.injEq _ _).mp h2
      rw [((Prod.mk.injEq _ _ _ _).mp h3).1]
  by_contra hnot
  push_neg at hnot
  -- iT <= iD, both below the length of the sorted list, hence below num.
  have hiD : iD < sorted.length := List.get?_eq_some.mp hgetD |>.1
  have hiT : iT < sorted.length := List.get?_eq_some.mp hgetT |>.1
  have hnum : iD < st.sched.length := lt_of_lt_of_le hiD hlensorted
  have hcell := checkPairs_ok tbl sorted st.sched.length _ hcheck iT
    (List.mem_range.mpr (lt_of_le_of_lt hnot hnum)) iD
    (by
      rw [List.mem_range'_1]
      omega)
  obtain ⟨l, r, hl, hr, hrank⟩ := checkCell_ok tbl sorted iT iD hcell
  rw [hgetT] at hl
  rw [hgetD] at hr
  rw [(Option.some.injEq _ _).mp hl.symm, (Option.some.injEq _ _).mp hr.symm] at hrank
  rw [rankSubtargets_of_mem tbl T D hreq] at hrank
  exact absurd hrank (by norm_num)

/-- The three-target chain A <- B <- C used by the witnesses and by the
    C2 analysis: C requires B, B requires A. -/
def chainTable : TargetTable := [("A", []), ("B", ["A"]), ("C", ["B"])]

/-- Witness for C1 on the chain: resolving C yields the schedule
    [A, B, C]; B (position 1) is a requirement of C (position 2). -/
theorem determine_subtargets_topological_witness :
    determine_subtargets chainTable 20 ["C"] [] [] =
      .ok [("A", ["B"]), ("B", ["C"]), ("C", [])]
    ∧ (1 : Nat) < 2 :=
  ⟨rfl,
   determine_subtargets_topological chainTable 20 ["C"] [] []
     [("A", ["B"]), ("B", ["C"]), ("C", [])] rfl 1 2 "B" "C" ["C"] []
     rfl rfl (by decide)⟩

/-- C2 counterexample: the claim says resolving target C over the chain
    C requires B requires A with skip_targets=[B] excludes B and only B,
    with both A and C remaining.  In the source the visited set is seeded
    with the skip list, so the traversal never descends into B and never
    reaches A: the produced schedule is exactly [C] — A is excluded too. -/
theorem skip_excludes_transitive_requirements :
    determine_subtargets chainTable 20 ["C"] ["B"] [] = .ok [("C", [])]
    ∧ "A" ∈ tblNames chainTable
    ∧ ([("C", ([] : List String))].map Prod.fst) = ["C"] :=
  ⟨rfl, by decide, rfl⟩

/-- C2 amended: over the chain C requires B requires A, resolving C with
    skip_targets=[B] produces the schedule [C]: B is excluded, and A —
    reachable only through the skipped B — is excluded as well, because
    seeding the visited set with the skip list prunes the whole traversal
    below B.  C itself remains, with an empty required-by list. -/
theorem skip_prunes_below_skipped :
    determine_subtargets chainTable 20 ["C"] ["B"] [] = .ok [("C", [])]
    ∧ (∀ sched, determine_subtargets chainTable 20 ["C"] ["B"] [] = .ok sched →
        ("B" ∉ sched.map Prod.fst ∧ "A" ∉ sched.map Prod.fst
          ∧ "C" ∈ sched.map Prod.fst)) := by
  have h0 : determine_subtargets chainTable 20 ["C"] ["B"] [] = .ok [("C", [])] := rfl
  refine ⟨h0, ?_⟩
  intro sched h
  rw [h0] at h
  have hs : sched = [("C", [])] := ((Except.ok.injEq _ _).mp h).symm
  rw [hs]
  exact ⟨by decide, by decide, by decide⟩

/-! Embedded expression interpreter (build/utils.py): the Scope class,
    execute, and the Executable node classes that the claims exercise —
    For, Try, WithRessource, Set, Return, Raise and Function.

    Modelling notes:
    - A Scope is a mutable object shared by reference; scopes live in a
      store indexed by numeric ids (EvalState.scopes), and a Scope value
      is its id.  Scope.__setitem__ writes the local mapping of exactly
      the addressed scope (dict semantics: an existing key keeps its
      position, a new key is appended); lookup walks the parent chain.
    - Python exceptions are the Err values; "except Exception" catches
      every Err (every modelled exception class derives from Exception,
      including ReturnException).
    - Strings that execute evaluates: only the identifier case of
      expression-mode text is modelled (evar, an eval that resolves the
      name against the scope and wraps a failed lookup in
      BuildError("error executing expression: ...")), and template-mode
      strings that contain no braces evaluate to themselves (so the name
      positions of Set assignments and For loop variables, which the
      source passes through execute(..., str_is_python=False), are plain
      String fields here).
    - The fuel argument of the evaluator bounds recursion depth (Python's
      recursion limit); running out yields none, which every theorem
      below excludes.
    - Scope keys are strings (non-string keys never arise in the claims'
      constructs); dict/mapping expression nodes and the comment printing
      of execute are not modelled (they play no role in the claims). -/

inductive ErrClass where
  | exceptionCls
  | runtimeErrorCls
  | buildErrorCls
  | missingExceptionCls
  | returnExceptionCls
  deriving DecidableEq, Repr

/-- The loop-variable clause of a For node: execute(self.for_, scope,
    str_is_python=False) yields either one name or a sequence of names. -/
inductive ForVar where
  | one (name : String)
  | many (names : List String)
  deriving DecidableEq, Repr

mutual
inductive Val where
  | vnone : Val
  | vbool : Bool → Val
  | vint : Int → Val
  | vstr : String → Val
  | vlist : List Val → Val
  | vdict : List (String × Val) → Val
  | vsem : Nat → Val
  | vexc : Err → Val
  | vclosure : List String → Expr → Nat → Val

inductive Err where
  | buildError : String → Err
  | missingExceptionInRaise : Err
  | returnExc : Val → Err
  | assertionError : Err
  | typeError : Err
  | indexError : Err

inductive Expr where
  | elit : Val → Expr
  | evar : String → Expr
  | eseq : List Expr → Expr
  | efor : ForVar → Expr → Expr → Bool → Expr
  | etry : Expr → Option (List ErrClass) → Option Expr → Option Expr → Expr
  | ewith : Expr → Expr → Expr → Expr
  | eset : List (String × Expr) → Expr
  | ereturn : Expr → Expr
  | eraise : Option Expr → Expr
  | efunction : Expr → List String → Expr
end

/-- isinstance(e, cls) over the modelled exception hierarchy:
    Exception > RuntimeError > BuildError > MissingExceptionInRaise,
    and Exception > ReturnException.  AssertionError, TypeError and
    IndexError derive from Exception but not from RuntimeError. -/
def ErrClass.matches : ErrClass → Err → Bool
  | .exceptionCls, _ => true
  | .runtimeErrorCls, e =>
    match e with
    | .buildError _ => true
    | .missingExceptionInRaise => true
    | _ => false
  | .buildErrorCls, e =>
    match e with
    | .buildError _ => true
    | .missingExceptionInRaise => true
    | _ => false
  | .missingExceptionCls, e =>
    match e with
    | .missingExceptionInRaise => true
    | _ => false
  | .returnExceptionCls, e =>
    match e with
    | .returnExc _ => true
    | _ => false

/-- The outcome of evaluating one expression: a value or a raised
    exception propagating upwards. -/
inductive Outcome where
  | ok : Val → Outcome
  | err : Err → Outcome

/-- One Scope object: its local variable dict (insertion-ordered) and its
    base (parent) scope reference. -/
structure ScopeData where
  vars : List (String × Val)
  parent : Option Nat

/-- The mutable world: the scope store, the next fresh scope id, and the
    broker's Semaphore instances (by id). -/
structure EvalState where
  scopes : List (Nat × ScopeData)
  nextId : Nat
  sems : List (Nat × Semaphore)

/-- Dict write: an existing key is overwritten in place, a new key is
    appended (Python dict semantics). -/
def setAssoc (vars : List (String × Val)) (k : String) (v : Val) :
    List (String × Val) :=
  if vars.any (fun p => p.1 == k) then
    vars.map (fun p => if p.1 == k then (k, v) else p)
  else vars ++ [(k, v)]

def getAssoc : List (String × Val) → String → Option Val
  | [], _ => none
  | p :: l, k => if p.1 == k then some p.2 else getAssoc l k

def findEntry : List (Nat × ScopeData) → Nat → Option ScopeData
  | [], _ => none
  | p :: l, sid => if p.1 == sid then some p.2 else findEntry l sid

def findScope (st : EvalState) (sid : Nat) : Option ScopeData :=
  findEntry st.scopes sid

/-- Scope.__setitem__ on the scope with id sid: always writes the local
    mapping of that scope, never an ancestor. -/
def updScope (sid : Nat) (k : String) (v : Val) (p : Nat × ScopeData) : Nat × ScopeData :=
  if p.1 == sid then (p.1, { p.2 with vars := setAssoc p.2.vars k v }) else p

def setVar (st : EvalState) (sid : Nat) (k : String) (v : Val) : EvalState :=
  { st with scopes := st.scopes.map (updScope sid k v) }

/-- Direct lookup in one scope's local mapping (no parent fallback). -/
def lookupLocal (st : EvalState) (sid : Nat) (k : String) : Option Val :=
  match findScope st sid with
  | some sd => getAssoc sd.vars k
  | none => none

/-- Scope.__getitem__: local mapping first, then the parent chain.  The
    fuel bounds the chain length. -/
def getVarAux (st : EvalState) : Nat → Nat → String → Option Val
  | 0, _, _ => none
  | fuel + 1, sid, k =>
    match findScope st sid with
    | none => none
    | some sd =>
      match getAssoc sd.vars k with
      | some v => some v
      | none =>
        match sd.parent with
        | some p => getVarAux st fuel p k
        | none => none

def getVar (st : EvalState) (sid : Nat) (k : String) : Option Val :=
  getVarAux st (st.scopes.length + 1) sid k

/-- Scope(variables, base): allocate a fresh scope with the given local
    mapping and parent. -/
def allocScope (st : EvalState) (vars : List (String × Val)) (parent : Option Nat) :
    Nat × EvalState :=
  (st.nextId,
   { st with
     scopes := st.scopes ++ [(st.nextId, { vars := vars, parent := parent })],
     nextId := st.nextId + 1 })

/-- Whether the except clause of a Try handles the raised error: a Try
    without an except list handles everything (the bare
    "except Exception" of the source); with a list, any isinstance match
    suffices. -/
def excHandles (excL : Option (List ErrClass)) (e : Err) : Bool :=
  match excL with
  | none => true
  | some l => l.any (fun c => c.matches e)

/-- Binding of the For loop variable(s) for one iteration element,
    written directly into the scope sid (not into a child scope):
    scope[variable] = element, or zip-destructuring for a name sequence
    (zip truncates at the shorter side; a non-sequence element raises
    TypeError — iterable non-list elements are outside the model). -/
def bindZip : List String → List Val → Nat → EvalState → EvalState
  | n :: ns, p :: ps, sid, st => bindZip ns ps sid (setVar st sid n p)
  | _, _, _, st => st

def bindForVars (vars : ForVar) (x : Val) (sid : Nat) (st : EvalState) :
    Except Err EvalState :=
  match vars with
  | .one n => .ok (setVar st sid n x)
  | .many ns =>
    match x with
    | .vlist parts => .ok (bindZip ns parts sid st)
    | _ => .error .typeError

/-- The names a ForVar binds. -/
def forVarNames : ForVar → List String
  | .one n => [n]
  | .many ns => ns

mutual
/-- The evaluator: execute(value, scope, ...) restricted to the node
    kinds above.  Each case mirrors the corresponding __call__ of
    build/utils.py:
    - elit: scalars are returned as-is;
    - evar: identifier expression-mode text — eval(name, {}, scope); an
      unknown identifier becomes BuildError("error executing expression:
      name");
    - eseq: a sequence evaluates element by element into a list;
    - efor (For.__call__, lines 777-807): evaluate the iterable, then per
      element bind the loop variable(s) directly into the current scope
      and run the body, collecting results (a sequence body collects one
      sub-list per iteration, or extends the result when flatten);
    - etry (Try.__call__, lines 858-881): evaluate try; on an error,
      re-raise unless the except list (if any) matches, otherwise
      evaluate execute(self.as_) (default "exception"), bind the caught
      error under that name in a child Scope of the current one, and
      re-evaluate the try body there; a finally expression, if present,
      always runs afterwards and its value becomes the result (on the
      non-error paths);
    - ewith (WithRessource.__call__, lines 890-907): evaluate ressource
      and count, then `assert isinstance(ressource, threading.Semaphore)`
      — this assertion FAILS for every value of the model, because the
      broker's resources are build.utils.Semaphore instances (vsem) and
      utils.Semaphore is not a subclass of threading.Semaphore (the
      scheduler's own build_subtarget asserts utils.Semaphore instead);
      evaluation therefore always stops here with AssertionError and the
      acquire/body/release code below the assert is unreachable;
    - eset (Set.__call__, lines 917-922): evaluate each value, then write
      the name into the current scope, in order; the node returns None;
    - ereturn (Return.__call__): raise ReturnException(value);
    - eraise (Raise.__call__): raise MissingExceptionInRaise when no
      exception is given, else raise the evaluated value (a non-exception
      value raises TypeError in Python);
    - efunction (Function.__call__): produce a closure capturing the
      defining scope by reference. -/
def eval : Nat → Expr → Nat → EvalState → Option (Outcome × EvalState)
  | 0, _, _, _ => none
  | fuel + 1, e, sid, st =>
    match e with
    | .elit v => some (.ok v, st)
    | .evar n =>
      match getVar st sid n with
      | some v => some (.ok v, st)
      | none => some (.err (.buildError ("error executing expression: " ++ n)), st)
    | .eseq es =>
      match evalStmts fuel es sid st with
      | none => none
      | some (.ok vs, st1) => some (.ok (.vlist vs), st1)
      | some (.error er, st1) => some (.err er, st1)
    | .efor vars inE doE flatten =>
      match eval fuel inE sid st with
      | none => none
      | some (.err er, st1) => some (.err er, st1)
      | some (.ok v, st1) =>
        match v with
        | .vlist xs =>
          match evalForLoop fuel vars doE flatten sid xs [] st1 with
          | none => none
          | some (.ok rs, st2) => some (.ok (.vlist rs), st2)
          | some (.error er, st2) => some (.err er, st2)
        | _ => some (.err .typeError, st1)
    | .etry tryE excL asE finE =>
      match eval fuel tryE sid st with
      | none => none
      | some (.ok v, st1) => runFinally fuel finE sid (.ok v) st1
      | some (.err er, st1) =>
        if excHandles excL er then
          match evalAsName fuel asE sid st1 with
          | none => none
          | some (.error e2, st2) => runFinally fuel finE sid (.err e2) st2
          | some (.ok nm, st2) =>
            match eval fuel tryE (allocScope st2 [(nm, .vexc er)] (some sid)).1
                (allocScope st2 [(nm, .vexc er)] (some sid)).2 with
            | none => none
            | some (out, st3) => runFinally fuel finE sid out st3
        else runFinally fuel finE sid (.err er) st1
    | .ewith resE cntE _doE =>
      match eval fuel resE sid st with
      | none => none
      | some (.err er, st1) => some (.err er, st1)
      | some (.ok _, st1) =>
        match eval fuel cntE sid st1 with
        | none => none
        | some (.err er, st2) => some (.err er, st2)
        | some (.ok _, st2) => some (.err .assertionError, st2)
    | .eset assigns => evalAssigns fuel assigns sid st
    | .ereturn vE =>
      match eval fuel vE sid st with
      | none => none
      | some (.err er, st1) => some (.err er, st1)
      | some (.ok v, st1) => some (.err (.returnExc v), st1)
    | .eraise oe =>
      match oe with
      | none => some (.err .missingExceptionInRaise, st)
      | some ex =>
        match eval fuel ex sid st with
        | none => none
        | some (.err er, st1) => some (.err er, st1)
        | some (.ok v, st1) =>
          match v with
          | .vexc er => some (.err er, st1)
          | _ => some (.err .typeError, st1)
    | .efunction body argNames => some (.ok (.vclosure argNames body sid), st)

termination_by structural fuel => fuel

/-- Sequential evaluation of a statement list, collecting the values
    (execute over a Python list). -/

def evalStmts : Nat → List Expr → Nat → EvalState →
    Option ((Except Err (List Val)) × EvalState)
  | 0, _, _, _ => none
  | _ + 1, [], _, st => some (.ok [], st)
  | fuel + 1, e :: es, sid, st =>
    match eval fuel e sid st with
    | none => none
    | some (.err er, st1) => some (.error er, st1)
    | some (.ok v, st1) =>
      match evalStmts fuel es sid st1 with
      | none => none
      | some (.error er, st2) => some (.error er, st2)
      | some (.ok vs, st2) => some (.ok (v :: vs), st2)

termination_by structural fuel => fuel

/-- The per-element loop of For.__call__: bind the loop variable(s) into
    the current scope, evaluate the body (a sequence body statement by
    statement), and collect the results. -/

def evalForLoop : Nat → ForVar → Expr → Bool → Nat → List Val → List Val →
    EvalState → Option ((Except Err (List Val)) × EvalState)
  | 0, _, _, _, _, _, _, _ => none
  | _ + 1, _, _, _, _, [], acc, st => some (.ok acc, st)
  | fuel + 1, vars, doE, flatten, sid, x :: xs, acc, st =>
    match bindForVars vars x sid st with
    | .error er => some (.error er, st)
    | .ok st1 =>
      match doE with
      | .eseq stmts =>
        match evalStmts fuel stmts sid st1 with
        | none => none
        | some (.error er, st2) => some (.error er, st2)
        | some (.ok rs, st2) =>
          evalForLoop fuel vars doE flatten sid xs
            (if flatten then acc ++ rs else acc ++ [.vlist rs]) st2
      | _ =>
        match eval fuel doE sid st1 with
        | none => none
        | some (.err er, st2) => some (.error er, st2)
        | some (.ok v, st2) => evalForLoop fuel vars doE flatten sid xs (acc ++ [v]) st2

termination_by structural fuel => fuel

/-- The finally clause: when present it always runs; its value becomes
    the node's result on the non-error paths, while a propagating error
    keeps propagating after it (and an error raised by the finally body
    itself replaces the outcome). -/

def runFinally : Nat → Option Expr → Nat → Outcome → EvalState →
    Option (Outcome × EvalState)
  | 0, _, _, _, _ => none
  | fuel + 1, finE, sid, out, st =>
    match finE with
    | none => some (out, st)
    | some f =>
      match eval fuel f sid st with
      | none => none
      | some (.ok fv, st1) =>
        some ((match out with | .ok _ => .ok fv | .err er => .err er), st1)
      | some (.err fe, st1) => some (.err fe, st1)

termination_by structural fuel => fuel

/-- execute(self.as_, scope, str_is_python=False) with the constructor
    default "exception"; the result must be a string to serve as a scope
    key in the model. -/

def evalAsName : Nat → Option Expr → Nat → EvalState →
    Option ((Except Err String) × EvalState)
  | 0, _, _, _ => none
  | fuel + 1, asE, sid, st =>
    match asE with
    | none => some (.ok "exception", st)
    | some a =>
      match eval fuel a sid st with
      | none => none
      | some (.err er, st1) => some (.error er, st1)
      | some (.ok v, st1) =>
        match v with
        | .vstr s => some (.ok s, st1)
        | _ => some (.error .typeError, st1)

termination_by structural fuel => fuel

/-- The assignment loop of Set.__call__: evaluate the value, then write
    scope[variable] = value, in declaration order; the node evaluates to
    None. -/

def evalAssigns : Nat → List (String × Expr) → Nat → EvalState →
    Option (Outcome × EvalState)
  | 0, _, _, _ => none
  | _ + 1, [], _, st => some (.ok .vnone, st)
  | fuel + 1, (k, vE) :: rest, sid, st =>
    match eval fuel vE sid st with
    | none => none
    | some (.err er, st1) => some (.err er, st1)
    | some (.ok v, st1) => evalAssigns fuel rest sid (setVar st1 sid k v)

end

/-- The argument-binding loop of the closure produced by
    Function.__call__ (build/utils.py lines 963-977):

        for argument in self.arguments:
            if argument in kwargs:
                function_scope[argument] = kwargs[argument]
                kwargs.pop(argument)
            else:
                function_scope[argument] = args[0]
                args = args[1:]

    Returns the function scope mapping built so far together with the
    remaining positional and keyword arguments (IndexError when a
    declared argument finds neither a keyword nor a positional value). -/
def bindArgs : List String → List (String × Val) → List Val → List (String × Val) →
    Except Err (List (String × Val) × List Val × List (String × Val))
  | [], fs, pos, kw => .ok (fs, pos, kw)
  | a :: rest, fs, pos, kw =>
    match getAssoc kw a with
    | some v => bindArgs rest (setAssoc fs a v) pos (kw.filter (fun p => !(p.1 == a)))
    | none =>
      match pos with
      | [] => .error .indexError
      | p :: ps => bindArgs rest (setAssoc fs a p) ps kw

/-- The full function-scope mapping of one closure call:

        if not self.arguments and args:
            function_scope["value"] = args[0]
        function_scope["args"] = args
        function_scope["kwargs"] = kwargs

    Note that args is bound WHOLE: when no arguments are declared the
    slicing loop above never ran, so "args" receives every positional
    value including the one also bound to "value". -/
def mkFunctionVars (argNames : List String) (pos : List Val)
    (kw : List (String × Val)) : Except Err (List (String × Val)) :=
  match bindArgs argNames [] pos kw with
  | .error er => .error er
  | .ok (fs, pos1, kw1) =>
    let fs1 := if argNames.isEmpty then
        (match pos1 with
         | [] => fs
         | p :: _ => setAssoc fs "value" p)
      else fs
    .ok (setAssoc (setAssoc fs1 "args" (.vlist pos1)) "kwargs" (.vdict kw1))

/-- Calling the closure produced by Function.__call__: build the function
    scope as a child of the captured defining scope, evaluate the body
    there, and catch a ReturnException to produce the call's value. -/
def callClosure (fuel : Nat) (c : Val) (pos : List Val) (kw : List (String × Val))
    (st : EvalState) : Option (Outcome × EvalState) :=
  match c with
  | .vclosure argNames body defSid =>
    match mkFunctionVars argNames pos kw with
    | .error er => some (.err er, st)
    | .ok fs =>
      match eval fuel body (allocScope st fs (some defSid)).1
          (allocScope st fs (some defSid)).2 with
      | none => none
      | some (.ok v, st1) => some (.ok v, st1)
      | some (.err (.returnExc v), st1) => some (.ok v, st1)
      | some (.err er, st1) => some (.err er, st1)
  | _ => some (.err .typeError, st)

mutual
/-- Syntactic check that evaluating an expression can never write the
    name n into any already-existing scope: no Set assignment to n and no
    For loop variable named n occur anywhere inside.  (Try handlers bind
    their as-name in a freshly allocated child scope, WithRessource stops
    at its assertion, and a Function node only builds a closure without
    running its body, so none of them needs a restriction.) -/
def NotWritten : Expr → String → Bool
  | .elit _, _ => true
  | .evar _, _ => true
  | .eseq es, n => NotWrittenList es n
  | .efor vars inE doE _, n =>
      !((forVarNames vars).contains n) && NotWritten inE n && NotWritten doE n
  | .etry t _ asE finE, n =>
      NotWritten t n && NotWrittenOpt asE n && NotWrittenOpt finE n
  | .ewith r c d, n => NotWritten r n && NotWritten c n && NotWritten d n
  | .eset asg, n => NotWrittenAssigns asg n
  | .ereturn v, n => NotWritten v n
  | .eraise oe, n => NotWrittenOpt oe n
  | .efunction _ _, _ => true

def NotWrittenList : List Expr → String → Bool
  | [], _ => true
  | e :: es, n => NotWritten e n && NotWrittenList es n

def NotWrittenOpt : Option Expr → String → Bool
  | none, _ => true
  | some e, n => NotWritten e n

def NotWrittenAssigns : List (String × Expr) → String → Bool
  | [], _ => true
  | (k, v) :: rest, n => !(k == n) && NotWritten v n && NotWrittenAssigns rest n
end

/-! State-operation lemmas used by the interpreter invariants. -/

theorem updScope_fst (sid : Nat) (k : String) (v : Val) (p : Nat × ScopeData) :
    (updScope sid k v p).1 = p.1 := by
  unfold updScope
  split <;> rfl

theorem bool_false_not_true {b : Bool} (h : b = false) : ¬ (b = true) := by
  rw [h]
  exact Bool.false_ne_true

theorem findEntry_map_updScope (l : List (Nat × ScopeData)) (sid : Nat)
    (k : String) (v : Val) (σ : Nat) :
    findEntry (l.map (updScope sid k v)) σ =
      Option.map (fun sd => if σ == sid then { sd with vars := setAssoc sd.vars k v }
        else sd) (findEntry l σ) := by
  induction l with
  | nil => rfl
  | cons p l ih =>
    simp only [List.map_cons, findEntry]
    rw [updScope_fst]
    cases hp : (p.1 == σ) with
    | true =>
      have hps : p.1 = σ := eq_of_beq hp
      unfold updScope
      cases hsid : (p.1 == sid) with
      | true =>
        have h2 : (σ == sid) = true := by rw [← hps]; exact hsid
        simp [h2]
      | false =>
        have h2 : (σ == sid) = false := by rw [← hps]; exact hsid
        simp [h2]
    | false => simp [ih]

theorem findScope_setVar (st : EvalState) (sid : Nat) (k : String) (v : Val)
    (σ : Nat) :
    findScope (setVar st sid k v) σ =
      Option.map (fun sd => if σ == sid then { sd with vars := setAssoc sd.vars k v }
        else sd) (findScope st σ) := by
  unfold findScope setVar
  exact findEntry_map_updScope st.scopes sid k v σ

theorem getAssoc_map_update_ne (vars : List (String × Val)) (k : String) (v : Val)
    (n : String) (hne : k ≠ n) :
    getAssoc (vars.map (fun p => if p.1 == k then (k, v) else p)) n
      = getAssoc vars n := by
  have hkn : (k == n) = false := by
    rw [beq_eq_false_iff_ne]
    exact hne
  induction vars with
  | nil => rfl
  | cons p l ih =>
    simp only [List.map_cons, getAssoc]
    cases hpk : (p.1 == k) with
    | true =>
      have hpn : (p.1 == n) = false := by
        rw [eq_of_beq hpk]
        exact hkn
      have e1 : (if true = true then (k, v) else p) = (k, v) := if_pos (Eq.refl true)
      rw [e1]
      dsimp only
      rw [if_neg (bool_false_not_true hkn), if_neg (bool_false_not_true hpn)]
      exact ih
    | false =>
      have e1 : (if false = true then (k, v) else p) = p := if_neg Bool.false_ne_true
      rw [e1]
      cases hpn : (p.1 == n) with
      | true => rfl
      | false =>
        rw [if_neg Bool.false_ne_true, if_neg Bool.false_ne_true]
        exact ih

theorem getAssoc_append_single_ne (vars : List (String × Val)) (k : String)
    (v : Val) (n : String) (hne : k ≠ n) :
    getAssoc (vars ++ [(k, v)]) n = getAssoc vars n := by
  have hkn : (k == n) = false := by
    rw [beq_eq_false_iff_ne]
    exact hne
  induction vars with
  | nil =>
    simp only [List.nil_append, getAssoc]
    simp [hkn]
  | cons p l ih =>
    simp only [List.cons_append, getAssoc]
    cases hpn : (p.1 == n) with
    | true => simp
    | false => simp [ih]

theorem getAssoc_setAssoc_ne (vars : List (String × Val)) (k : String) (v : Val)
    (n : String) (hne : k ≠ n) :
    getAssoc (setAssoc vars k v) n = getAssoc vars n := by
  unfold setAssoc
  split
  · exact getAssoc_map_update_ne vars k v n hne
  · exact getAssoc_append_single_ne vars k v n hne

theorem getAssoc_map_update_eq (vars : List (String × Val)) (k : String) (v : Val)
    (hany : vars.any (fun p => p.1 == k) = true) :
    getAssoc (vars.map (fun p => if p.1 == k then (k, v) else p)) k = some v := by
  induction vars with
  | nil => cases hany
  | cons p l ih =>
    simp only [List.map_cons, getAssoc]
    cases hpk : (p.1 == k) with
    | true =>
      have e1 : (if true = true then (k, v) else p) = (k, v) := if_pos (Eq.refl true)
      rw [e1]
      dsimp only
      rw [if_pos (beq_self_eq_true k)]
    | false =>
      simp only [List.any_cons, hpk, Bool.false_or] at hany
      have e1 : (if false = true then (k, v) else p) = p := if_neg Bool.false_ne_true
      rw [e1]
      rw [if_neg (bool_false_not_true hpk)]
      exact ih hany

theorem getAssoc_append_single_eq (vars : List (String × Val)) (k : String)
    (v : Val) (hnone : vars.any (fun p => p.1 == k) = false) :
    getAssoc (vars ++ [(k, v)]) k = some v := by
  induction vars with
  | nil => simp [getAssoc]
  | cons p l ih =>
    simp only [List.any_cons, Bool.or_eq_false_iff] at hnone
    simp only [List.cons_append, getAssoc]
    simp [hnone.1, ih hnone.2]

theorem getAssoc_setAssoc_eq (vars : List (String × Val)) (k : String) (v : Val) :
    getAssoc (setAssoc vars k v) k = some v := by
  unfold setAssoc
  split
  · rename_i hany
    exact getAssoc_map_update_eq vars k v hany
  · rename_i hany
    refine getAssoc_append_single_eq vars k v ?_
    cases h2 : vars.any (fun p => p.1 == k) with
    | true => exact absurd h2 hany
    | false => rfl

theorem lookupLocal_setVar_ne (st : EvalState) (sid : Nat) (k : String) (v : Val)
    (σ : Nat) (n : String) (hne : k ≠ n) :
    lookupLocal (setVar st sid k v) σ n = lookupLocal st σ n := by
  unfold lookupLocal
  rw [findScope_setVar]
  cases hf : findScope st σ with
  | none => rfl
  | some sd =>
    simp only [Option.map_some']
    cases hs : (σ == sid) with
    | true =>
      simp only [if_true]
      exact getAssoc_setAssoc_ne sd.vars k v n hne
    | false => simp

theorem lookupLocal_setVar_eq (st : EvalState) (sid : Nat) (k : String) (v : Val)
    (h : (findScope st sid).isSome = true) :
    lookupLocal (setVar st sid k v) sid k = some v := by
  unfold lookupLocal
  rw [findScope_setVar]
  cases hf : findScope st sid with
  | none => rw [hf] at h; cases h
  | some sd =>
    simp only [Option.map_some', beq_self_eq_true, if_true]
    exact getAssoc_setAssoc_eq sd.vars k v

theorem findEntry_append_single_ne (l : List (Nat × ScopeData))
    (e : Nat × ScopeData) (σ : Nat) (hne : σ ≠ e.1) :
    findEntry (l ++ [e]) σ = findEntry l σ := by
  induction l with
  | nil =>
    simp only [List.nil_append, findEntry]
    have h2 : (e.1 == σ) = false := by
      rw [beq_eq_false_iff_ne]
      exact fun hc => hne hc.symm
    simp [h2]
  | cons p l ih =>
    simp only [List.cons_append, findEntry]
    cases hp : (p.1 == σ) with
    | true => simp [hp]
    | false => simp [hp, ih]

theorem findEntry_append_single_isSome (l : List (Nat × ScopeData))
    (e : Nat × ScopeData) (σ : Nat) (he : e.1 = σ) :
    (findEntry (l ++ [e]) σ).isSome = true := by
  induction l with
  | nil => simp [findEntry, he]
  | cons p l ih =>
    simp only [List.cons_append, findEntry]
    cases hp : (p.1 == σ) with
    | true => simp [hp]
    | false => simp [hp, ih]

theorem findScope_alloc_ne (st : EvalState) (vs : List (String × Val))
    (par : Option Nat) (σ : Nat) (hne : σ ≠ st.nextId) :
    findScope (allocScope st vs par).2 σ = findScope st σ := by
  unfold findScope allocScope
  exact findEntry_append_single_ne st.scopes _ σ hne

theorem lookupLocal_alloc_ne (st : EvalState) (vs : List (String × Val))
    (par : Option Nat) (σ : Nat) (n : String) (hne : σ ≠ st.nextId) :
    lookupLocal (allocScope st vs par).2 σ n = lookupLocal st σ n := by
  unfold lookupLocal
  rw [findScope_alloc_ne st vs par σ hne]

/-- The state facts every evaluator step preserves: the semaphores are
    untouched, the fresh-id counter never decreases, and existing scopes
    keep existing. -/
def StInv (st st2 : EvalState) : Prop :=
  st2.sems = st.sems ∧ st.nextId ≤ st2.nextId
    ∧ ∀ σ, (findScope st σ).isSome = true → (findScope st2 σ).isSome = true

theorem stInv_refl (st : EvalState) : StInv st st :=
  ⟨rfl, Nat.le_refl _, fun _ h => h⟩

theorem stInv_trans {s1 s2 s3 : EvalState} (h1 : StInv s1 s2) (h2 : StInv s2 s3) :
    StInv s1 s3 :=
  ⟨h2.1.trans h1.1, h1.2.1.trans h2.2.1, fun σ h => h2.2.2 σ (h1.2.2 σ h)⟩

theorem stInv_setVar (st : EvalState) (sid : Nat) (k : String) (v : Val) :
    StInv st (setVar st sid k v) := by
  refine ⟨rfl, Nat.le_refl _, ?_⟩
  intro σ h
  rw [findScope_setVar]
  cases hf : findScope st σ with
  | none => rw [hf] at h; cases h
  | some sd => simp

theorem stInv_alloc (st : EvalState) (vs : List (String × Val)) (par : Option Nat) :
    StInv st (allocScope st vs par).2 := by
  refine ⟨rfl, Nat.le_succ _, ?_⟩
  intro σ h
  by_cases hne : σ = st.nextId
  · unfold findScope allocScope
    exact findEntry_append_single_isSome st.scopes _ σ hne.symm
  · rw [findScope_alloc_ne st vs par σ hne]
    exact h

theorem stInv_bindZip (ns : List String) (ps : List Val) (sid : Nat)
    (st : EvalState) : StInv st (bindZip ns ps sid st) := by
  induction ns generalizing ps st with
  | nil => exact stInv_refl st
  | cons n ns ih =>
    cases ps with
    | nil => exact stInv_refl st
    | cons p ps =>
      exact stInv_trans (stInv_setVar st sid n p) (ih ps (setVar st sid n p))

theorem lookupLocal_bindZip_ne (ns : List String) (ps : List Val) (sid : Nat)
    (st : EvalState) (σ : Nat) (n : String) (hn : ¬ n ∈ ns) :
    lookupLocal (bindZip ns ps sid st) σ n = lookupLocal st σ n := by
  induction ns generalizing ps st with
  | nil => rfl
  | cons m ns ih =>
    cases ps with
    | nil => rfl
    | cons p ps =>
      rw [List.mem_cons, not_or] at hn
      unfold bindZip
      rw [ih ps _ hn.2, lookupLocal_setVar_ne st sid m p σ n (fun hc => hn.1 hc.symm)]

theorem some_pair_inj {α β : Type} {a c : α} {b d : β}
    (h : some (a, b) = some (c, d)) : a = c ∧ b = d := by
  injection h with h1
  exact ⟨congrArg Prod.fst h1, congrArg Prod.snd h1⟩

theorem bindForVars_inv (vars : ForVar) (x : Val) (sid : Nat) (st st1 : EvalState)
    (h : bindForVars vars x sid st = .ok st1) :
    StInv st st1 ∧ ∀ n, ¬ n ∈ forVarNames vars → ∀ σ,
      lookupLocal st1 σ n = lookupLocal st σ n := by
  cases vars with
  | one m =>
    simp only [bindForVars, Except.ok.injEq] at h
    subst h
    refine ⟨stInv_setVar st sid m x, ?_⟩
    intro n hn σ
    simp only [forVarNames, List.mem_singleton] at hn
    exact lookupLocal_setVar_ne st sid m x σ n (fun hc => hn hc.symm)
  | many ns =>
    simp only [bindForVars] at h
    cases x with
    | vlist parts =>
      simp only [Except.ok.injEq] at h
      subst h
      exact ⟨stInv_bindZip ns parts sid st,
        fun n hn σ => lookupLocal_bindZip_ne ns parts sid st σ n hn⟩
    | vnone => exact Except.noConfusion h
    | vbool b => exact Except.noConfusion h
    | vint i => exact Except.noConfusion h
    | vstr s => exact Except.noConfusion h
    | vdict d => exact Except.noConfusion h
    | vsem i => exact Except.noConfusion h
    | vexc er => exact Except.noConfusion h
    | vclosure a b c => exact Except.noConfusion h

/-- The two state facts every successful (and every failing-by-exception)
    evaluation step guarantees: the StInv invariant, and that the local
    binding of any name the expression cannot write (NotWritten) is
    unchanged in every scope that already existed.  Proved for all six
    mutually recursive evaluator functions at once, by induction on the
    fuel. -/
theorem evalPreserve : ∀ fuel : Nat,
    (∀ e sid st out st2, eval fuel e sid st = some (out, st2) →
      StInv st st2 ∧ ∀ n, NotWritten e n = true → ∀ σ, σ < st.nextId →
        lookupLocal st2 σ n = lookupLocal st σ n)
    ∧ (∀ es sid st r st2, evalStmts fuel es sid st = some (r, st2) →
      StInv st st2 ∧ ∀ n, NotWrittenList es n = true → ∀ σ, σ < st.nextId →
        lookupLocal st2 σ n = lookupLocal st σ n)
    ∧ (∀ vars doE fl sid xs acc st r st2,
        evalForLoop fuel vars doE fl sid xs acc st = some (r, st2) →
      StInv st st2 ∧ ∀ n, NotWritten doE n = true → ¬ n ∈ forVarNames vars →
        ∀ σ, σ < st.nextId → lookupLocal st2 σ n = lookupLocal st σ n)
    ∧ (∀ finE sid out0 st r st2, runFinally fuel finE sid out0 st = some (r, st2) →
      StInv st st2 ∧ ∀ n, NotWrittenOpt finE n = true → ∀ σ, σ < st.nextId →
        lookupLocal st2 σ n = lookupLocal st σ n)
    ∧ (∀ asE sid st r st2, evalAsName fuel asE sid st = some (r, st2) →
      StInv st st2 ∧ ∀ n, NotWrittenOpt asE n = true → ∀ σ, σ < st.nextId →
        lookupLocal st2 σ n = lookupLocal st σ n)
    ∧ (∀ asg sid st out st2, evalAssigns fuel asg sid st = some (out, st2) →
      StInv st st2 ∧ ∀ n, NotWrittenAssigns asg n = true → ∀ σ, σ < st.nextId →
        lookupLocal st2 σ n = lookupLocal st σ n) := by
  intro fuel
  induction fuel with
  | zero =>
    refine ⟨fun e sid st out st2 h => Option.noConfusion h,
      fun es sid st r st2 h => Option.noConfusion h,
      fun vars doE fl sid xs acc st r st2 h => Option.noConfusion h,
      fun finE sid out0 st r st2 h => Option.noConfusion h,
      fun asE sid st r st2 h => Option.noConfusion h,
      fun asg sid st out st2 h => Option.noConfusion h⟩
  | succ fuel ih =>
    obtain ⟨ihE, ihS, ihF, ihFin, ihAs, ihA⟩ := ih
    refine ⟨?_, ?_, ?_, ?_, ?_, ?_⟩
    -- eval
    · intro e sid st out st2 h
      cases e with
      | elit v =>
        simp only [eval] at h
        obtain ⟨h1, h2⟩ := some_pair_inj h
        subst h2
        exact ⟨stInv_refl st, fun n _ σ _ => rfl⟩
      | evar nm =>
        simp only [eval] at h
        split at h <;>
        · obtain ⟨h1, h2⟩ := some_pair_inj h
          subst h2
          exact ⟨stInv_refl st, fun n _ σ _ => rfl⟩
      | eseq es =>
        simp only [eval] at h
        split at h
        · exact Option.noConfusion h
        · rename_i vs st1 heq
          obtain ⟨h1, h2⟩ := some_pair_inj h
          subst h2
          obtain ⟨hinv, hlook⟩ := ihS es sid st _ _ heq
          refine ⟨hinv, ?_⟩
          intro n hnw σ hσ
          simp only [NotWritten] at hnw
          exact hlook n hnw σ hσ
        · rename_i er st1 heq
          obtain ⟨h1, h2⟩ := some_pair_inj h
          subst h2
          obtain ⟨hinv, hlook⟩ := ihS es sid st _ _ heq
          refine ⟨hinv, ?_⟩
          intro n hnw σ hσ
          simp only [NotWritten] at hnw
          exact hlook n hnw σ hσ
      | efor vars inE doE fl =>
        simp only [eval] at h
        split at h
        · exact Option.noConfusion h
        · rename_i er st1 heq
          obtain ⟨h1, h2⟩ := some_pair_inj h
          subst h2
          obtain ⟨hinv, hlook⟩ := ihE inE sid st _ _ heq
          refine ⟨hinv, ?_⟩
          intro n hnw σ hσ
          simp only [NotWritten, Bool.and_eq_true] at hnw
          exact hlook n hnw.1.2 σ hσ
        · rename_i v st1 heq
          obtain ⟨hinv1, hlook1⟩ := ihE inE sid st _ _ heq
          split at h
          · rename_i xs
            split at h
            · exact Option.noConfusion h
            · rename_i rs st3 heq2
              obtain ⟨h1, h2⟩ := some_pair_inj h
              subst h2
              obtain ⟨hinv2, hlook2⟩ := ihF vars doE fl sid xs [] st1 _ _ heq2
              refine ⟨stInv_trans hinv1 hinv2, ?_⟩
              intro n hnw σ hσ
              simp only [NotWritten, Bool.and_eq_true, Bool.not_eq_eq_eq_not,
                Bool.not_true] at hnw
              have hnotin : ¬ n ∈ forVarNames vars := by
                intro hc
                have h3 : (forVarNames vars).contains n = true :=
                  List.elem_eq_true_of_mem hc
                rw [hnw.1.1] at h3
                exact Bool.noConfusion h3
              rw [hlook2 n hnw.2 hnotin σ (lt_of_lt_of_le hσ hinv1.2.1),
                hlook1 n hnw.1.2 σ hσ]
            · rename_i er st3 heq2
              obtain ⟨h1, h2⟩ := some_pair_inj h
              subst h2
              obtain ⟨hinv2, hlook2⟩ := ihF vars doE fl sid xs [] st1 _ _ heq2
              refine ⟨stInv_trans hinv1 hinv2, ?_⟩
              intro n hnw σ hσ
              simp only [NotWritten, Bool.and_eq_true, Bool.not_eq_eq_eq_not,
                Bool.not_true] at hnw
              have hnotin : ¬ n ∈ forVarNames vars := by
                intro hc
                have h3 : (forVarNames vars).contains n = true :=
                  List.elem_eq_true_of_mem hc
                rw [hnw.1.1] at h3
                exact Bool.noConfusion h3
              rw [hlook2 n hnw.2 hnotin σ (lt_of_lt_of_le hσ hinv1.2.1),
                hlook1 n hnw.1.2 σ hσ]
          · obtain ⟨h1, h2⟩ := some_pair_inj h
            subst h2
            refine ⟨hinv1, ?_⟩
            intro n hnw σ hσ
            simp only [NotWritten, Bool.and_eq_true] at hnw
            exact hlook1 n hnw.1.2 σ hσ
      | etry tryE excL asE finE =>
        simp only [eval] at h
        split at h
        · exact Option.noConfusion h
        · rename_i v st1 heq
          obtain ⟨hinv1, hlook1⟩ := ihE tryE sid st _ _ heq
          obtain ⟨hinv2, hlook2⟩ := ihFin finE sid _ st1 _ _ h
          refine ⟨stInv_trans hinv1 hinv2, ?_⟩
          intro n hnw σ hσ
          simp only [NotWritten, Bool.and_eq_true] at hnw
          rw [hlook2 n hnw.2 σ (lt_of_lt_of_le hσ hinv1.2.1),
            hlook1 n hnw.1.1 σ hσ]
        · rename_i er st1 heq
          obtain ⟨hinv1, hlook1⟩ := ihE tryE sid st _ _ heq
          split at h
          · split at h
            · exact Option.noConfusion h
            · rename_i e2 st2a heq2
              obtain ⟨hinv2, hlook2⟩ := ihAs asE sid st1 _ _ heq2
              obtain ⟨hinv3, hlook3⟩ := ihFin finE sid _ st2a _ _ h
              refine ⟨stInv_trans hinv1 (stInv_trans hinv2 hinv3), ?_⟩
              intro n hnw σ hσ
              simp only [NotWritten, Bool.and_eq_true] at hnw
              rw [hlook3 n hnw.2 σ
                  (lt_of_lt_of_le hσ (hinv1.2.1.trans hinv2.2.1)),
                hlook2 n hnw.1.2 σ (lt_of_lt_of_le hσ hinv1.2.1),
                hlook1 n hnw.1.1 σ hσ]
            · rename_i nm st2a heq2
              obtain ⟨hinv2, hlook2⟩ := ihAs asE sid st1 _ _ heq2
              split at h
              · exact Option.noConfusion h
              · rename_i out3 st3 heq3
                obtain ⟨hinv3, hlook3⟩ := ihE tryE _ _ _ _ heq3
                obtain ⟨hinv4, hlook4⟩ := ihFin finE sid _ st3 _ _ h
                have hainv := stInv_alloc st2a [(nm, Val.vexc er)] (some sid)
                refine ⟨stInv_trans hinv1 (stInv_trans hinv2
                  (stInv_trans hainv (stInv_trans hinv3 hinv4))), ?_⟩
                intro n hnw σ hσ
                simp only [NotWritten, Bool.and_eq_true] at hnw
                have hσ1 : σ < st1.nextId := lt_of_lt_of_le hσ hinv1.2.1
                have hσ2 : σ < st2a.nextId := lt_of_lt_of_le hσ1 hinv2.2.1
                have hσa : σ < (allocScope st2a [(nm, Val.vexc er)] (some sid)).2.nextId :=
                  lt_of_lt_of_le hσ2 hainv.2.1
                rw [hlook4 n hnw.2 σ (lt_of_lt_of_le hσa hinv3.2.1),
                  hlook3 n hnw.1.1 σ hσa,
                  lookupLocal_alloc_ne st2a [(nm, Val.vexc er)] (some sid) σ n
                    (Nat.ne_of_lt hσ2),
                  hlook2 n hnw.1.2 σ hσ1,
                  hlook1 n hnw.1.1 σ hσ]
          · obtain ⟨hinv2, hlook2⟩ := ihFin finE sid _ st1 _ _ h
            refine ⟨stInv_trans hinv1 hinv2, ?_⟩
            intro n hnw σ hσ
            simp only [NotWritten, Bool.and_eq_true] at hnw
            rw [hlook2 n hnw.2 σ (lt_of_lt_of_le hσ hinv1.2.1),
              hlook1 n hnw.1.1 σ hσ]
      | ewith resE cntE doE =>
        simp only [eval] at h
        split at h
        · exact Option.noConfusion h
        · rename_i er st1 heq
          obtain ⟨h1, h2⟩ := some_pair_inj h
          subst h2
          obtain ⟨hinv, hlook⟩ := ihE resE sid st _ _ heq
          refine ⟨hinv, ?_⟩
          intro n hnw σ hσ
          simp only [NotWritten, Bool.and_eq_true] at hnw
          exact hlook n hnw.1.1 σ hσ
        · rename_i v1 st1 heq
          obtain ⟨hinv1, hlook1⟩ := ihE resE sid st _ _ heq
          split at h
          · exact Option.noConfusion h
          · rename_i er st2a heq2
            obtain ⟨h1, h2⟩ := some_pair_inj h
            subst h2
            obtain ⟨hinv2, hlook2⟩ := ihE cntE sid st1 _ _ heq2
            refine ⟨stInv_trans hinv1 hinv2, ?_⟩
            intro n hnw σ hσ
            simp only [NotWritten, Bool.and_eq_true] at hnw
            rw [hlook2 n hnw.1.2 σ (lt_of_lt_of_le hσ hinv1.2.1),
              hlook1 n hnw.1.1 σ hσ]
          · rename_i v2 st2a heq2
            obtain ⟨h1, h2⟩ := some_pair_inj h
            subst h2
            obtain ⟨hinv2, hlook2⟩ := ihE cntE sid st1 _ _ heq2
            refine ⟨stInv_trans hinv1 hinv2, ?_⟩
            intro n hnw σ hσ
            simp only [NotWritten, Bool.and_eq_true] at hnw
            rw [hlook2 n hnw.1.2 σ (lt_of_lt_of_le hσ hinv1.2.1),
              hlook1 n hnw.1.1 σ hσ]
      | eset asg =>
        simp only [eval] at h
        obtain ⟨hinv, hlook⟩ := ihA asg sid st _ _ h
        refine ⟨hinv, ?_⟩
        intro n hnw σ hσ
        simp only [NotWritten] at hnw
        exact hlook n hnw σ hσ
      | ereturn vE =>
        simp only [eval] at h
        split at h
        · exact Option.noConfusion h
        · rename_i er st1 heq
          obtain ⟨h1, h2⟩ := some_pair_inj h
          subst h2
          obtain ⟨hinv, hlook⟩ := ihE vE sid st _ _ heq
          refine ⟨hinv, ?_⟩
          intro n hnw σ hσ
          simp only [NotWritten] at hnw
          exact hlook n hnw σ hσ
        · rename_i v st1 heq
          obtain ⟨h1, h2⟩ := some_pair_inj h
          subst h2
          obtain ⟨hinv, hlook⟩ := ihE vE sid st _ _ heq
          refine ⟨hinv, ?_⟩
          intro n hnw σ hσ
          simp only [NotWritten] at hnw
          exact hlook n hnw σ hσ
      | eraise oe =>
        simp only [eval] at h
        split at h
        · obtain ⟨h1, h2⟩ := some_pair_inj h
          subst h2
          exact ⟨stInv_refl st, fun n _ σ _ => rfl⟩
        · rename_i ex
          split at h
          · exact Option.noConfusion h
          · rename_i er st1 heq
            obtain ⟨h1, h2⟩ := some_pair_inj h
            subst h2
            obtain ⟨hinv, hlook⟩ := ihE ex sid st _ _ heq
            refine ⟨hinv, ?_⟩
            intro n hnw σ hσ
            simp only [NotWritten, NotWrittenOpt] at hnw
            exact hlook n hnw σ hσ
          · rename_i v st1 heq
            obtain ⟨hinv, hlook⟩ := ihE ex sid st _ _ heq
            split at h <;>
            · obtain ⟨h1, h2⟩ := some_pair_inj h
              subst h2
              refine ⟨hinv, ?_⟩
              intro n hnw σ hσ
              simp only [NotWritten, NotWrittenOpt] at hnw
              exact hlook n hnw σ hσ
      | efunction body argNames =>
        simp only [eval] at h
        obtain ⟨h1, h2⟩ := some_pair_inj h
        subst h2
        exact ⟨stInv_refl st, fun n _ σ _ => rfl⟩
    -- evalStmts
    · intro es sid st r st2 h
      cases es with
      | nil =>
        simp only [evalStmts] at h
        obtain ⟨h1, h2⟩ := some_pair_inj h
        subst h2
        exact ⟨stInv_refl st, fun n _ σ _ => rfl⟩
      | cons e es =>
        simp only [evalStmts] at h
        split at h
        · exact Option.noConfusion h
        · rename_i er st1 heq
          obtain ⟨h1, h2⟩ := some_pair_inj h
          subst h2
          obtain ⟨hinv, hlook⟩ := ihE e sid st _ _ heq
          refine ⟨hinv, ?_⟩
          intro n hnw σ hσ
          simp only [NotWrittenList, Bool.and_eq_true] at hnw
          exact hlook n hnw.1 σ hσ
        · rename_i v st1 heq
          obtain ⟨hinv1, hlook1⟩ := ihE e sid st _ _ heq
          split at h
          · exact Option.noConfusion h
          · rename_i er st2a heq2
            obtain ⟨h1, h2⟩ := some_pair_inj h
            subst h2
            obtain ⟨hinv2, hlook2⟩ := ihS es sid st1 _ _ heq2
            refine ⟨stInv_trans hinv1 hinv2, ?_⟩
            intro n hnw σ hσ
            simp only [NotWrittenList, Bool.and_eq_true] at hnw
            rw [hlook2 n hnw.2 σ (lt_of_lt_of_le hσ hinv1.2.1),
              hlook1 n hnw.1 σ hσ]
          · rename_i vs st2a heq2
            obtain ⟨h1, h2⟩ := some_pair_inj h
            subst h2
            obtain ⟨hinv2, hlook2⟩ := ihS es sid st1 _ _ heq2
            refine ⟨stInv_trans hinv1 hinv2, ?_⟩
            intro n hnw σ hσ
            simp only [NotWrittenList, Bool.and_eq_true] at hnw
            rw [hlook2 n hnw.2 σ (lt_of_lt_of_le hσ hinv1.2.1),
              hlook1 n hnw.1 σ hσ]
    -- evalForLoop
    · intro vars doE fl sid xs acc st r st2 h
      cases xs with
      | nil =>
        simp only [evalForLoop] at h
        obtain ⟨h1, h2⟩ := some_pair_inj h
        subst h2
        exact ⟨stInv_refl st, fun n _ _ σ _ => rfl⟩
      | cons x xs =>
        simp only [evalForLoop] at h
        split at h
        · obtain ⟨h1, h2⟩ := some_pair_inj h
          subst h2
          exact ⟨stInv_refl st, fun n _ _ σ _ => rfl⟩
        · rename_i st1 heq
          obtain ⟨hbinv, hblook⟩ := bindForVars_inv vars x sid st st1 heq
          split at h
          · rename_i stmts
            split at h
            · exact Option.noConfusion h
            · rename_i er st2a heq2
              obtain ⟨h1, h2⟩ := some_pair_inj h
              subst h2
              obtain ⟨hinv2, hlook2⟩ := ihS stmts sid st1 _ _ heq2
              refine ⟨stInv_trans hbinv hinv2, ?_⟩
              intro n hnw hnotin σ hσ
              simp only [NotWritten] at hnw
              rw [hlook2 n hnw σ (lt_of_lt_of_le hσ hbinv.2.1),
                hblook n hnotin σ]
            · rename_i rs st2a heq2
              obtain ⟨hinv2, hlook2⟩ := ihS stmts sid st1 _ _ heq2
              obtain ⟨hinv3, hlook3⟩ := ihF vars _ fl sid xs _ st2a _ _ h
              refine ⟨stInv_trans hbinv (stInv_trans hinv2 hinv3), ?_⟩
              intro n hnw hnotin σ hσ
              simp only [NotWritten] at hnw
              have hσ1 : σ < st1.nextId := lt_of_lt_of_le hσ hbinv.2.1
              have hσ2 : σ < st2a.nextId := lt_of_lt_of_le hσ1 hinv2.2.1
              rw [hlook3 n (by simp only [NotWritten]; exact hnw) hnotin σ hσ2,
                hlook2 n hnw σ hσ1, hblook n hnotin σ]
          · split at h
            · exact Option.noConfusion h
            · rename_i er st2a heq2
              obtain ⟨h1, h2⟩ := some_pair_inj h
              subst h2
              obtain ⟨hinv2, hlook2⟩ := ihE doE sid st1 _ _ heq2
              refine ⟨stInv_trans hbinv hinv2, ?_⟩
              intro n hnw hnotin σ hσ
              rw [hlook2 n hnw σ (lt_of_lt_of_le hσ hbinv.2.1),
                hblook n hnotin σ]
            · rename_i v st2a heq2
              obtain ⟨hinv2, hlook2⟩ := ihE doE sid st1 _ _ heq2
              obtain ⟨hinv3, hlook3⟩ := ihF vars doE fl sid xs _ st2a _ _ h
              refine ⟨stInv_trans hbinv (stInv_trans hinv2 hinv3), ?_⟩
              intro n hnw hnotin σ hσ
              have hσ1 : σ < st1.nextId := lt_of_lt_of_le hσ hbinv.2.1
              have hσ2 : σ < st2a.nextId := lt_of_lt_of_le hσ1 hinv2.2.1
              rw [hlook3 n hnw hnotin σ hσ2, hlook2 n hnw σ hσ1,
                hblook n hnotin σ]
    -- runFinally
    · intro finE sid out0 st r st2 h
      simp only [runFinally] at h
      split at h
      · obtain ⟨h1, h2⟩ := some_pair_inj h
        subst h2
        exact ⟨stInv_refl st, fun n _ σ _ => rfl⟩
      · rename_i f
        split at h
        · exact Option.noConfusion h
        · rename_i fv st1 heq
          obtain ⟨h1, h2⟩ := some_pair_inj h
          subst h2
          obtain ⟨hinv, hlook⟩ := ihE f sid st _ _ heq
          refine ⟨hinv, ?_⟩
          intro n hnw σ hσ
          simp only [NotWrittenOpt] at hnw
          exact hlook n hnw σ hσ
        · rename_i fe st1 heq
          obtain ⟨h1, h2⟩ := some_pair_inj h
          subst h2
          obtain ⟨hinv, hlook⟩ := ihE f sid st _ _ heq
          refine ⟨hinv, ?_⟩
          intro n hnw σ hσ
          simp only [NotWrittenOpt] at hnw
          exact hlook n hnw σ hσ
    -- evalAsName
    · intro asE sid st r st2 h
      simp only [evalAsName] at h
      split at h
      · obtain ⟨h1, h2⟩ := some_pair_inj h
        subst h2
        exact ⟨stInv_refl st, fun n _ σ _ => rfl⟩
      · rename_i a
        split at h
        · exact Option.noConfusion h
        · rename_i er st1 heq
          obtain ⟨h1, h2⟩ := some_pair_inj h
          subst h2
          obtain ⟨hinv, hlook⟩ := ihE a sid st _ _ heq
          refine ⟨hinv, ?_⟩
          intro n hnw σ hσ
          simp only [NotWrittenOpt] at hnw
          exact hlook n hnw σ hσ
        · rename_i v st1 heq
          obtain ⟨hinv, hlook⟩ := ihE a sid st _ _ heq
          split at h <;>
          · obtain ⟨h1, h2⟩ := some_pair_inj h
            subst h2
            refine ⟨hinv, ?_⟩
            intro n hnw σ hσ
            simp only [NotWrittenOpt] at hnw
            exact hlook n hnw σ hσ
    -- evalAssigns
    · intro asg sid st out st2 h
      cases asg with
      | nil =>
        simp only [evalAssigns] at h
        obtain ⟨h1, h2⟩ := some_pair_inj h
        subst h2
        exact ⟨stInv_refl st, fun n _ σ _ => rfl⟩
      | cons kv rest =>
        obtain ⟨k, vE⟩ := kv
        simp only [evalAssigns] at h
        split at h
        · exact Option.noConfusion h
        · rename_i er st1 heq
          obtain ⟨h1, h2⟩ := some_pair_inj h
          subst h2
          obtain ⟨hinv, hlook⟩ := ihE vE sid st _ _ heq
          refine ⟨hinv, ?_⟩
          intro n hnw σ hσ
          simp only [NotWrittenAssigns, Bool.and_eq_true] at hnw
          exact hlook n hnw.1.2 σ hσ
        · rename_i v st1 heq
          obtain ⟨hinv1, hlook1⟩ := ihE vE sid st _ _ heq
          obtain ⟨hinv2, hlook2⟩ := ihA rest sid (setVar st1 sid k v) _ _ h
          refine ⟨stInv_trans hinv1 (stInv_trans (stInv_setVar st1 sid k v) hinv2), ?_⟩
          intro n hnw σ hσ
          simp only [NotWrittenAssigns, Bool.and_eq_true, Bool.not_eq_eq_eq_not,
            Bool.not_true] at hnw
          have hkn : k ≠ n := by
            intro hc
            have := hnw.1.1
            rw [hc] at this
            rw [beq_self_eq_true] at this
            exact Bool.noConfusion this
          have hσ1 : σ < st1.nextId := lt_of_lt_of_le hσ hinv1.2.1
          have hσ2 : σ < (setVar st1 sid k v).nextId := hσ1
          rw [hlook2 n hnw.2 σ hσ2,
            lookupLocal_setVar_ne st1 sid k v σ n hkn,
            hlook1 n hnw.1.2 σ hσ]

/-- Shared initial state for the interpreter witnesses: one empty global
    scope with id 0 and no semaphores yet. -/
def st0 : EvalState :=
  { scopes := [(0, { vars := [], parent := none })], nextId := 1, sems := [] }

/-- Like st0, but with one broker semaphore of capacity 2 registered. -/
def st0s : EvalState :=
  { scopes := [(0, { vars := [], parent := none })], nextId := 1,
    sems := [(0, { count := 0, maxCount := 2 })] }

/-- C4: Try.__call__ semantics.  Evaluating a Try node evaluates the try
    body; on success the finally clause decides the result.  If the body
    raises and the except list names one or more error kinds of which
    none matches the raised error, the error is re-raised (through the
    finally clause).  Otherwise the caught error is bound under the name
    given by as_ — whose constructor default is "exception" — in a
    freshly allocated child Scope of the current one, and the try body is
    re-evaluated there.  A finally expression, when present, always runs
    afterwards: its value becomes the node's result on the value paths,
    while a propagating error is re-raised after it. -/
theorem try_semantics (fuel : Nat) (tryE : Expr) (excL : Option (List ErrClass))
    (asE finE : Option Expr) (sid : Nat) (st : EvalState) :
    (∀ v st1, eval fuel tryE sid st = some (.ok v, st1) →
      eval (fuel + 1) (.etry tryE excL asE finE) sid st
        = runFinally fuel finE sid (.ok v) st1)
    ∧ (∀ er st1 l, eval fuel tryE sid st = some (.err er, st1) → excL = some l →
        (∀ c ∈ l, c.matches er = false) →
        eval (fuel + 1) (.etry tryE excL asE finE) sid st
          = runFinally fuel finE sid (.err er) st1)
    ∧ (∀ er st1 nm st2, eval fuel tryE sid st = some (.err er, st1) →
        excHandles excL er = true →
        evalAsName fuel asE sid st1 = some (.ok nm, st2) →
        eval (fuel + 1) (.etry tryE excL asE finE) sid st
          = (match eval fuel tryE (allocScope st2 [(nm, .vexc er)] (some sid)).1
                (allocScope st2 [(nm, .vexc er)] (some sid)).2 with
             | none => none
             | some (out, st3) => runFinally fuel finE sid out st3))
    ∧ (∀ g st3, evalAsName (g + 1) none sid st3 = some (.ok "exception", st3))
    ∧ (∀ g out0 st3, runFinally (g + 1) none sid out0 st3 = some (out0, st3))
    ∧ (∀ g f st3 st4 fv, finE = some f → eval g f sid st3 = some (.ok fv, st4) →
        (∀ v, runFinally (g + 1) finE sid (.ok v) st3 = some (.ok fv, st4))
        ∧ ∀ er, runFinally (g + 1) finE sid (.err er) st3 = some (.err er, st4)) := by
  refine ⟨?_, ?_, ?_, ?_, ?_, ?_⟩
  · intro v st1 hb
    simp only [eval, hb]
  · intro er st1 l hb hl hm
    subst hl
    have hh : excHandles (some l) er = false := by
      simp only [excHandles, List.any_eq_false]
      intro c hc
      simp [hm c hc]
    simp only [eval, hb]
    rw [if_neg (bool_false_not_true hh)]
  · intro er st1 nm st2 hb hh hA
    simp only [eval, hb]
    rw [if_pos hh]
    simp only [hA]
  · intro g st3
    rfl
  · intro g out0 st3
    rfl
  · intro g f st3 st4 fv hf hev
    subst hf
    constructor
    · intro v
      simp only [runFinally, hev]
    · intro er
      simp only [runFinally, hev]

/-- Witness for try_semantics, exercising the handled path at a concrete
    input.  The name "exception" is unbound, so the try body raises
    BuildError; the except list names BuildError, so the body is
    re-evaluated in a child scope binding "exception" to the caught
    error, where the variable now resolves to that error value. -/
theorem try_semantics_witness :
    eval 4 (.etry (.evar "exception") (some [.buildErrorCls]) none none) 0 st0
      = some (.ok (.vexc (.buildError "error executing expression: exception")),
          { scopes := [(0, { vars := [], parent := none }),
              (1, { vars := [("exception", Val.vexc
                      (.buildError "error executing expression: exception"))],
                    parent := some 0 })],
            nextId := 2, sems := [] }) :=
  ((try_semantics 3 (.evar "exception") (some [.buildErrorCls]) none none 0
      st0).2.2.1 (.buildError "error executing expression: exception") st0
      "exception" st0 rfl rfl rfl).trans rfl

/-- C6 (code bug): WithRessource.__call__ never reaches its acquire /
    body / release code.  After evaluating ressource and count it runs
    `assert isinstance(ressource, threading.Semaphore)`, but the broker
    hands out build.utils.Semaphore instances, which are not
    threading.Semaphore instances (build_subtarget itself asserts
    utils.Semaphore), so the assertion raises AssertionError
    unconditionally: the body is never evaluated, nothing is acquired or
    released, and the semaphore states are untouched. -/
theorem withressource_asserts_instead_of_acquiring (fuel : Nat)
    (resE cntE doE : Expr) (sid : Nat) (st st1 st2 : EvalState) (rv cv : Val)
    (hres : eval fuel resE sid st = some (.ok rv, st1))
    (hcnt : eval fuel cntE sid st1 = some (.ok cv, st2)) :
    eval (fuel + 1) (.ewith resE cntE doE) sid st
      = some (.err .assertionError, st2)
    ∧ st2.sems = st.sems := by
  refine ⟨?_, ?_⟩
  · simp only [eval, hres, hcnt]
  · have h1 := ((evalPreserve fuel).1 resE sid st _ _ hres).1
    have h2 := ((evalPreserve fuel).1 cntE sid st1 _ _ hcnt).1
    rw [h2.1, h1.1]

/-- Witness: with ressource vsem 0 and count 1 at a state holding one
    capacity-2 semaphore, the node evaluates to AssertionError and the
    semaphore list is unchanged. -/
theorem withressource_asserts_witness :
    eval 2 (.ewith (.elit (.vsem 0)) (.elit (.vint 1)) (.elit .vnone)) 0 st0s
      = some (.err .assertionError, st0s)
    ∧ st0s.sems = st0s.sems :=
  withressource_asserts_instead_of_acquiring 1 (.elit (.vsem 0))
    (.elit (.vint 1)) (.elit .vnone) 0 st0s st0s st0s (.vsem 0) (.vint 1) rfl rfl

/-- C7 counterexample: calling a no-argument closure with the two
    positional values 10 and 20 binds "args" to the WHOLE positional
    list [10, 20], not to the remainder [20] after "value".  The
    argument-slicing loop never runs when no arguments are declared, so
    function_scope["args"] = args receives every positional value,
    including the one also bound to "value"; the body `args` returns
    [10, 20]. -/
theorem function_args_keeps_all_positionals :
    callClosure 4 (.vclosure [] (.evar "args") 0) [.vint 10, .vint 20] [] st0
      = some (.ok (.vlist [.vint 10, .vint 20]),
          { scopes := [(0, { vars := [], parent := none }),
              (1, { vars := [("value", .vint 10),
                  ("args", .vlist [.vint 10, .vint 20]),
                  ("kwargs", .vdict [])], parent := some 0 })],
            nextId := 2, sems := [] })
    ∧ Val.vlist [.vint 10, .vint 20] ≠ Val.vlist [.vint 20] := by
  refine ⟨rfl, ?_⟩
  intro h
  simp at h

/-- C7 amended: the function scope of a call to a closure declaring no
    arguments binds "value" to the first positional value (when there is
    one), "args" to the ENTIRE positional list — the first value is not
    excluded — and "kwargs" to the keyword arguments. -/
theorem function_binds_value_and_whole_args (pos : List Val)
    (kw : List (String × Val)) :
    mkFunctionVars [] pos kw
      = .ok ((match pos with | [] => [] | p :: _ => [("value", p)])
          ++ [("args", Val.vlist pos), ("kwargs", Val.vdict kw)]) := by
  cases pos with
  | nil => rfl
  | cons p ps => rfl

/-- Destructuring lookup for zip-bound loop variables: with distinct
    names, the i-th name ends up bound to the i-th element. -/
theorem bindZip_get (ns : List String) (ps : List Val) (sid : Nat)
    (st : EvalState) (hnd : ns.Nodup)
    (hsc : (findScope st sid).isSome = true) :
    ∀ (i : Nat) nm p, ns[i]? = some nm → ps[i]? = some p →
      lookupLocal (bindZip ns ps sid st) sid nm = some p := by
  induction ns generalizing ps st with
  | nil =>
    intro i nm p h1 h2
    rw [List.getElem?_nil] at h1
    exact Option.noConfusion h1
  | cons n ns ih =>
    intro i nm p h1 h2
    cases ps with
    | nil =>
      rw [List.getElem?_nil] at h2
      exact Option.noConfusion h2
    | cons q ps =>
      cases i with
      | zero =>
        rw [List.getElem?_cons_zero] at h1 h2
        injection h1 with h1
        injection h2 with h2
        simp only [bindZip]
        have hnin : ¬ n ∈ ns := (List.nodup_cons.mp hnd).1
        rw [← h1, ← h2]
        rw [lookupLocal_bindZip_ne ns ps sid _ sid n hnin]
        exact lookupLocal_setVar_eq st sid n q hsc
      | succ i =>
        rw [List.getElem?_cons_succ] at h1 h2
        have hsc2 : (findScope (setVar st sid n q) sid).isSome = true :=
          (stInv_setVar st sid n q).2.2 sid hsc
        exact ih ps (setVar st sid n q) (List.nodup_cons.mp hnd).2 hsc2 i nm p h1 h2

/-- One iteration of the For loop within a run that ends in an overall
    .ok result: the loop-variable binding succeeds, the body run
    preserves the state invariant and every NotWritten name, and the
    loop continues on the tail. -/
theorem evalForLoop_cons_ok (fuel : Nat) (vars : ForVar) (doE : Expr)
    (fl : Bool) (sid : Nat) (x : Val) (xs acc : List Val) (st : EvalState)
    (rs : List Val) (st2 : EvalState)
    (h : evalForLoop (fuel + 1) vars doE fl sid (x :: xs) acc st
        = some (.ok rs, st2)) :
    ∃ st1 st2a acc2,
      bindForVars vars x sid st = .ok st1
      ∧ StInv st1 st2a
      ∧ (∀ n, NotWritten doE n = true → ∀ σ, σ < st1.nextId →
          lookupLocal st2a σ n = lookupLocal st1 σ n)
      ∧ evalForLoop fuel vars doE fl sid xs acc2 st2a = some (.ok rs, st2) := by
  simp only [evalForLoop] at h
  split at h
  · exact absurd (some_pair_inj h).1 (fun hc => Except.noConfusion hc)
  · rename_i st1 heq
    split at h
    · rename_i stmts
      split at h
      · exact Option.noConfusion h
      · rename_i er st2b heq2
        exact absurd (some_pair_inj h).1 (fun hc => Except.noConfusion hc)
      · rename_i rsb st2b heq2
        have pres := (evalPreserve fuel).2.1 stmts sid st1 _ _ heq2
        refine ⟨st1, st2b, _, heq, pres.1, ?_, h⟩
        intro n hnw σ hσ
        simp only [NotWritten] at hnw
        exact pres.2 n hnw σ hσ
    · split at h
      · exact Option.noConfusion h
      · rename_i er st2b heq2
        exact absurd (some_pair_inj h).1 (fun hc => Except.noConfusion hc)
      · rename_i v st2b heq2
        have pres := (evalPreserve fuel).1 doE sid st1 _ _ heq2
        exact ⟨st1, st2b, _, heq, pres.1, pres.2, h⟩

/-- After a For loop over a nonempty element list completes with an .ok
    result, the loop variable(s) hold the value(s) taken from the last
    element, directly in scope sid. -/
theorem evalForLoop_last_binding (xs : List Val) :
    ∀ fuel vars doE fl sid acc st rs st2,
      evalForLoop fuel vars doE fl sid xs acc st = some (.ok rs, st2) →
      (findScope st sid).isSome = true → sid < st.nextId →
      (∀ n, n ∈ forVarNames vars → NotWritten doE n = true) →
      ∀ last, xs.getLast? = some last →
      (∀ nm, vars = .one nm → lookupLocal st2 sid nm = some last)
      ∧ (∀ ns parts, vars = .many ns → ns.Nodup → last = .vlist parts →
          ∀ (i : Nat) nm p, ns[i]? = some nm → parts[i]? = some p →
            lookupLocal st2 sid nm = some p) := by
  induction xs with
  | nil =>
    intro fuel vars doE fl sid acc st rs st2 h hsc hsid hnw last hlast
    exact Option.noConfusion hlast
  | cons x xs ih =>
    intro fuel vars doE fl sid acc st rs st2 h hsc hsid hnw last hlast
    cases fuel with
    | zero => exact Option.noConfusion h
    | succ fuel =>
      obtain ⟨st1, st2a, acc2, hbind, hinv, hpres, hrest⟩ :=
        evalForLoop_cons_ok fuel vars doE fl sid x xs acc st rs st2 h
      obtain ⟨hbinv, hbk⟩ := bindForVars_inv vars x sid st st1 hbind
      cases xs with
      | nil =>
        have hx : some x = some last := hlast
        injection hx with hx
        cases fuel with
        | zero => exact Option.noConfusion hrest
        | succ fuel2 =>
          simp only [evalForLoop] at hrest
          obtain ⟨hr1, hr2⟩ := some_pair_inj hrest
          subst hr2
          constructor
          · intro nm hvars
            subst hvars
            have hb : st1 = setVar st sid nm x := by
              simp only [bindForVars, Except.ok.injEq] at hbind
              exact hbind.symm
            have hl1 : lookupLocal st1 sid nm = some x := by
              rw [hb]
              exact lookupLocal_setVar_eq st sid nm x hsc
            have hσ : sid < st1.nextId := lt_of_lt_of_le hsid hbinv.2.1
            have hmem : nm ∈ forVarNames (ForVar.one nm) := by
              simp [forVarNames]
            rw [hpres nm (hnw nm hmem) sid hσ, hl1, hx]
          · intro ns parts hvars hnd hlp i nm p hn hp
            subst hvars
            have hxl : x = Val.vlist parts := hx.trans hlp
            rw [hxl] at hbind
            simp only [bindForVars, Except.ok.injEq] at hbind
            have hl1 : lookupLocal st1 sid nm = some p := by
              rw [← hbind]
              exact bindZip_get ns parts sid st hnd hsc i nm p hn hp
            have hmem : nm ∈ forVarNames (ForVar.many ns) := by
              simp only [forVarNames]
              exact List.getElem?_mem hn
            have hσ : sid < st1.nextId := lt_of_lt_of_le hsid hbinv.2.1
            rw [hpres nm (hnw nm hmem) sid hσ, hl1]
      | cons y ys =>
        have hlast2 : (y :: ys).getLast? = some last := by
          rw [← List.getLast?_cons_cons]
          exact hlast
        have hinv0 : StInv st st2a := stInv_trans hbinv hinv
        have hsc2 : (findScope st2a sid).isSome = true := hinv0.2.2 sid hsc
        have hsid2 : sid < st2a.nextId := lt_of_lt_of_le hsid hinv0.2.1
        exact ih fuel vars doE fl sid acc2 st2a rs st2 hrest hsc2 hsid2 hnw
          last hlast2

/-- C10: For.__call__ writes its loop variable(s) directly into the scope
    it is evaluated against (scope[variable] = element, no child Scope),
    so after a successful evaluation each loop variable is still bound in
    the enclosing scope, to the value taken from the last iteration
    element — provided the body cannot itself overwrite the name. -/
theorem for_binds_in_enclosing_scope (fuel : Nat) (vars : ForVar)
    (inE doE : Expr) (fl : Bool) (sid : Nat) (st st1 st2 : EvalState)
    (xs : List Val) (v : Val)
    (hsid : sid < st.nextId) (hscope : (findScope st sid).isSome = true)
    (hin : eval fuel inE sid st = some (.ok (.vlist xs), st1))
    (hok : eval (fuel + 1) (.efor vars inE doE fl) sid st = some (.ok v, st2))
    (hnw : ∀ n, n ∈ forVarNames vars → NotWritten doE n = true)
    (last : Val) (hlast : xs.getLast? = some last) :
    (∀ nm, vars = .one nm → lookupLocal st2 sid nm = some last)
    ∧ (∀ ns parts, vars = .many ns → ns.Nodup → last = .vlist parts →
        ∀ (i : Nat) nm p, ns[i]? = some nm → parts[i]? = some p →
          lookupLocal st2 sid nm = some p) := by
  simp only [eval, hin] at hok
  split at hok
  · exact Option.noConfusion hok
  · rename_i rs st2x heq
    obtain ⟨h1, h2⟩ := some_pair_inj hok
    subst h2
    have hinv := ((evalPreserve fuel).1 inE sid st _ _ hin).1
    have hsc1 : (findScope st1 sid).isSome = true := hinv.2.2 sid hscope
    have hsid1 : sid < st1.nextId := lt_of_lt_of_le hsid hinv.2.1
    exact evalForLoop_last_binding xs fuel vars doE fl sid [] st1 rs st2x heq
      hsc1 hsid1 hnw last hlast
  · rename_i er st2x heq
    exact absurd (some_pair_inj hok).1 (fun hc => Outcome.noConfusion hc)

/-- Witness for for_binds_in_enclosing_scope: looping x over [1, 2, 3]
    with a trivial body leaves x bound to 3 in the enclosing scope. -/
theorem for_binds_in_enclosing_scope_witness :
    lookupLocal
      { scopes := [(0, { vars := [("x", Val.vint 3)], parent := none })],
        nextId := 1, sems := [] } 0 "x" = some (.vint 3) :=
  (for_binds_in_enclosing_scope 7 (.one "x")
      (.elit (.vlist [.vint 1, .vint 2, .vint 3])) (.elit .vnone) false 0 st0
      st0
      { scopes := [(0, { vars := [("x", Val.vint 3)], parent := none })],
        nextId := 1, sems := [] }
      [.vint 1, .vint 2, .vint 3] (.vlist [.vnone, .vnone, .vnone])
      (by decide) rfl rfl rfl
      (by intro n hn; simp [NotWritten]) (.vint 3) rfl).1 "x" rfl

end BuildCore
